import Mathlib

/-!
Verification of the MedEase AI backend core against its specification.

This file gives a shallow embedding, in Lean, of the provider-orchestration
and lab-report-extraction core of the MedEase backend (a JavaScript service),
and proves or refutes the frozen specification claims about it.

Embedded components and their sources:
* JSON consensus synthesis: function synthesizeJsonConsensus and friends.
* Fallback orchestrator: function generateAIResponse.
* Provider registry reordering: function getAvailableProviders.
* Transport adapters: parameter handling of callOpenRouter, callGroq and
  relatives.
* Lab-value extractor: extractAbnormalFromText, extractTestDataFromLine,
  parseAbnormalRow, plus the finding merge and the abnormal_values
  normalization of interpretReport.

JavaScript strings are modelled as Lean List Char (wrapped into String at
record boundaries); the regular expressions of the source are compiled by
hand into deterministic scanners whose behaviour on the relevant inputs
agrees with the JS engine (leftmost match, alternation order, greediness;
each scanner documents the regex it implements).
-/

namespace MedEase

/-! ## Character classes (ASCII subsets of the JS regex classes) -/

/-- JS whitespace class backslash-s, restricted to its ASCII members
(space, tab, line feed, carriage return, vertical tab, form feed). -/
def isJsWs (c : Char) : Bool :=
  c.toNat = 32 || c.toNat = 9 || c.toNat = 10 || c.toNat = 13 ||
  c.toNat = 11 || c.toNat = 12

/-- JS digit class backslash-d. -/
def isDigitCh (c : Char) : Bool :=
  48 ≤ c.toNat && c.toNat ≤ 57

/-- ASCII letter, the a-zA-Z part of the source regex classes. -/
def isAlphaCh (c : Char) : Bool :=
  (65 ≤ c.toNat && c.toNat ≤ 90) || (97 ≤ c.toNat && c.toNat ≤ 122)

/-- JS word-character class backslash-w, used for word boundaries. -/
def isWordCh (c : Char) : Bool :=
  isAlphaCh c || isDigitCh c || c.toNat = 95

/-- Character class of UNIT_REGEX: a-zA-Z, percent, slash. -/
def isUnitCh (c : Char) : Bool :=
  isAlphaCh c || c.toNat = 37 || c.toNat = 47

/-- Characters of the separator class used in several range regexes,
one character drawn from dash, en dash, em dash, t, o (case-insensitive). -/
def isRangeSepCh (c : Char) : Bool :=
  c = '-' || c = '–' || c = '—' ||
  c.toLower = 't' || c.toLower = 'o'

/-- Character class of the reference-label capture group in
parseAbnormalRow, digits, dot, whitespace, dashes, t, o. -/
def isRefClassCh (c : Char) : Bool :=
  isDigitCh c || c = '.' || isJsWs c || c = '-' || c = '–' || c = '—' ||
  c.toLower = 't' || c.toLower = 'o'

/-! ## JS string primitives over List Char -/

/-- Lowercase a character list, modelling String.prototype.toLowerCase on
the ASCII range. -/
def lowerL (l : List Char) : List Char :=
  l.map Char.toLower

/-- Trim leading and trailing whitespace, modelling String.prototype.trim. -/
def jsTrimL (l : List Char) : List Char :=
  ((l.dropWhile isJsWs).reverse.dropWhile isJsWs).reverse

/-- Wrap a character list back into a String. -/
def strOf (l : List Char) : String :=
  ⟨l⟩

/-- Collapse every maximal whitespace run to a single space, the combined
effect of replace(tab+, space) followed by replace(backslash-s+, space)
in the line cleaner of extractAbnormalFromText. The fuel argument only
serves structural termination and is chosen large enough never to run
out. -/
def collapseWsAllFuel : ℕ → List Char → List Char
  | 0, _ => []
  | _, [] => []
  | fuel + 1, c :: cs =>
    if isJsWs c then ' ' :: collapseWsAllFuel fuel (cs.dropWhile isJsWs)
    else c :: collapseWsAllFuel fuel cs

/-- Collapse every maximal whitespace run to a single space. -/
def collapseWsAll (l : List Char) : List Char :=
  collapseWsAllFuel (l.length + 1) l

/-- Replace every whitespace run of length at least two by a single space,
keeping single whitespace characters as they are; this models
replace(backslash-s-at-least-2, space) used on test names in
parseAbnormalRow. The fuel argument only serves structural termination. -/
def collapseWs2Fuel : ℕ → List Char → List Char
  | 0, _ => []
  | _, [] => []
  | _ + 1, [c] => [c]
  | fuel + 1, c :: d :: cs =>
    if isJsWs c then
      if isJsWs d then ' ' :: collapseWs2Fuel fuel ((d :: cs).dropWhile isJsWs)
      else c :: collapseWs2Fuel fuel (d :: cs)
    else c :: collapseWs2Fuel fuel (d :: cs)

/-- Replace every whitespace run of length at least two by a single
space. -/
def collapseWs2 (l : List Char) : List Char :=
  collapseWs2Fuel (l.length + 1) l

/-- Substring containment, modelling String.prototype.includes. -/
def containsSub (needle : List Char) : List Char → Bool
  | [] => needle.isEmpty
  | c :: cs => needle.isPrefixOf (c :: cs) || containsSub needle cs

/-- Split on runs matched by the line-splitting regex of
extractAbnormalFromText, an optional carriage return followed by one or
more line feeds; the accumulator holds the current piece reversed, and
the fuel argument only serves structural termination. -/
def splitNLFuel : ℕ → List Char → List Char → List (List Char)
  | 0, acc, _ => [acc.reverse]
  | _, acc, [] => [acc.reverse]
  | fuel + 1, acc, '\r' :: '\n' :: rest =>
    acc.reverse :: splitNLFuel fuel [] (rest.dropWhile (· = '\n'))
  | fuel + 1, acc, '\n' :: rest =>
    acc.reverse :: splitNLFuel fuel [] (rest.dropWhile (· = '\n'))
  | fuel + 1, acc, c :: rest => splitNLFuel fuel (c :: acc) rest

/-- Split a text into lines the way the extractor does. -/
def splitNL (l : List Char) : List (List Char) :=
  splitNLFuel (l.length + 1) [] l

/-! ## Scanners for the regexes of aiRoutes.js -/

/-- The alternatives of FLAG_TERMS in source order. -/
def flagTerms : List (List Char) :=
  ["critical high", "critical low", "very high", "very low", "high", "low",
   "elevated", "reduced", "above normal", "below normal", "above range",
   "below range"].map String.data

/-- The alternatives of NORMAL_REGEX in source order. -/
def normalTerms : List (List Char) :=
  ["wnl", "within normal limits", "normal", "negative"].map String.data

/-- Case-insensitive match of a term at position i of s with word
boundaries on both sides, as in the word-bounded alternation regexes
FLAG_REGEX and NORMAL_REGEX. -/
def termMatchesAt (s : List Char) (i : ℕ) (term : List Char) : Bool :=
  term.isPrefixOf (lowerL (s.drop i)) &&
  (i = 0 ||
   (match (s.drop (i - 1)).head? with
    | some c => !isWordCh c
    | none => true)) &&
  (match (s.drop (i + term.length)).head? with
   | some c => !isWordCh c
   | none => true)

/-- Leftmost match of a word-bounded alternation: the first position at
which some term, tried in source order, matches; returns the index and the
matched slice in its original case. The fuel argument only serves
structural termination. -/
def findTermFrom (s : List Char) (terms : List (List Char)) : ℕ → ℕ →
    Option (ℕ × List Char)
  | _, 0 => none
  | i, fuel + 1 =>
    if i < s.length then
      match terms.find? (termMatchesAt s i) with
      | some t => some (i, (s.drop i).take t.length)
      | none => findTermFrom s terms (i + 1) fuel
    else none

/-- First match of FLAG_REGEX: position and matched word. -/
def findFlag (s : List Char) : Option (ℕ × List Char) :=
  findTermFrom s flagTerms 0 (s.length + 1)

/-- The boolean test of NORMAL_REGEX. -/
def normalTest (s : List Char) : Bool :=
  (findTermFrom s normalTerms 0 (s.length + 1)).isSome

/-- The boolean test of FLAG_REGEX. -/
def flagTest (s : List Char) : Bool :=
  (findFlag s).isSome

/-- Greedy digit span. -/
def spanDigits (l : List Char) : List Char × List Char :=
  (l.takeWhile isDigitCh, l.dropWhile isDigitCh)

/-- Greedy whitespace span. -/
def spanWs (l : List Char) : List Char × List Char :=
  (l.takeWhile isJsWs, l.dropWhile isJsWs)

/-- Unsigned number of RANGE_REGEX and NUMBER_REGEX, digits with an
optional dot-digits tail where the fraction needs at least one digit,
matched greedily at the head of l; returns the match and the rest.
Giving characters back cannot help these regexes because none of their
continuations can start with a digit or a dot, so the greedy parse is
faithful to the backtracking engine. -/
def numStrictCore (l : List Char) : Option (List Char × List Char) :=
  match spanDigits l with
  | ([], _) => none
  | (ds, rest) =>
    match rest with
    | '.' :: l2 =>
      match spanDigits l2 with
      | ([], _) => some (ds, rest)
      | (fs, l3) => some (ds ++ '.' :: fs, l3)
    | _ => some (ds, rest)

/-- Optionally signed number of RANGE_REGEX and NUMBER_REGEX. -/
def numStrictAt (l : List Char) : Option (List Char × List Char) :=
  match l with
  | '-' :: l1 => (numStrictCore l1).map (fun p => ('-' :: p.1, p.2))
  | _ => numStrictCore l

/-- Unsigned loose number digits dot-opt digits-star used by the rescue
regexes; a trailing bare dot is allowed. -/
def numLooseAt (l : List Char) : Option (List Char × List Char) :=
  match spanDigits l with
  | ([], _) => none
  | (ds, rest) =>
    match rest with
    | '.' :: l2 =>
      match spanDigits l2 with
      | (fs, l3) => some (ds ++ '.' :: fs, l3)
    | _ => some (ds, rest)

/-- The separator alternation of RANGE_REGEX: a dash, an en dash, an em
dash, or the word to in any case (the TO alternative is subsumed by the
case-insensitive flag). -/
def rangeSepAt (l : List Char) : Option (ℕ × List Char) :=
  match l with
  | '-' :: rest => some (1, rest)
  | '–' :: rest => some (1, rest)
  | '—' :: rest => some (1, rest)
  | c :: d :: rest =>
    if c.toLower = 't' && d.toLower = 'o' then some (2, rest) else none
  | _ => none

/-- Match of RANGE_REGEX at the head of l: the two captured numbers and
the total match length. -/
def rangeMatchAt (l : List Char) : Option (List Char × List Char × ℕ) :=
  match numStrictAt l with
  | none => none
  | some (g1, r1) =>
    match spanWs r1 with
    | (ws1, r2) =>
      match rangeSepAt r2 with
      | none => none
      | some (sl, r3) =>
        match spanWs r3 with
        | (ws2, r4) =>
          match numStrictAt r4 with
          | none => none
          | some (g2, _) =>
            some (g1, g2, g1.length + ws1.length + sl + ws2.length + g2.length)

/-- Leftmost match of RANGE_REGEX in s from a given position: index,
first captured number, second captured number, and match length. The fuel
argument only serves structural termination. -/
def findRangeFrom (s : List Char) : ℕ → ℕ →
    Option (ℕ × List Char × List Char × ℕ)
  | _, 0 => none
  | i, fuel + 1 =>
    if i < s.length then
      match rangeMatchAt (s.drop i) with
      | some (g1, g2, len) => some (i, g1, g2, len)
      | none => findRangeFrom s (i + 1) fuel
    else none

/-- Leftmost match of RANGE_REGEX. -/
def findRange (s : List Char) : Option (ℕ × List Char × List Char × ℕ) :=
  findRangeFrom s 0 (s.length + 1)

/-- The normalized reference-range text built from the two captures,
first dash second with single spaces. -/
def fmtRange (g1 g2 : List Char) : List Char :=
  g1 ++ (" - ").data ++ g2

/-- All matches of the global NUMBER_REGEX, leftmost first and
non-overlapping; the fuel argument only serves termination and is chosen
large enough never to run out. -/
def scanNumbersAux (s : List Char) (i : ℕ) : ℕ → List (List Char)
  | 0 => []
  | fuel + 1 =>
    if i < s.length then
      match numStrictAt (s.drop i) with
      | some (m, _) => m :: scanNumbersAux s (i + m.length) fuel
      | none => scanNumbersAux s (i + 1) fuel
    else []

/-- All matches of the global NUMBER_REGEX in s. -/
def scanNumbers (s : List Char) : List (List Char) :=
  scanNumbersAux s 0 (s.length + 1)

/-- Model of String.prototype.lastIndexOf for a nonempty needle. -/
def lastIdxOfSub (hay needle : List Char) : Option ℕ :=
  ((List.range (hay.length + 1)).filter
    (fun i => needle.isPrefixOf (hay.drop i))).getLast?

/-- Match of the end-anchored UNIT_REGEX, a run of unit characters with an
optional caret-digits tail ending the string; returns the match index and
the matched characters. The shape is decided by the last character, digit
versus unit character, so the scan is deterministic. -/
def unitMatchEnd (l : List Char) : Option (ℕ × List Char) :=
  match spanDigits l.reverse with
  | ([], _) =>
    match (l.reverse.takeWhile isUnitCh).reverse with
    | [] => none
    | us => some (l.length - us.length, us)
  | (ds, r1) =>
    match r1 with
    | '^' :: r2 =>
      match (r2.takeWhile isUnitCh).reverse with
      | [] => none
      | us => some (l.length - (us.length + 1 + ds.length),
                    us ++ '^' :: ds.reverse)
    | _ => none

/-- Test of the anchored numeric-part regex dash-opt digits dot-opt
digits-star from the parts loop of extractTestDataFromLine: after an
optional leading dash, at least one digit, then optionally a dot followed
by digits only. -/
def isNumericPart (l : List Char) : Bool :=
  let l1 := if l.head? = some '-' then l.tail else l
  let rest := l1.dropWhile isDigitCh
  !(l1.takeWhile isDigitCh).isEmpty &&
    (rest.isEmpty || (rest.head? == some '.' && rest.tail.all isDigitCh))

/-- Test of the anchored unit-part regex, a nonempty run over letters,
percent and slash. -/
def isUnitPart (l : List Char) : Bool :=
  !l.isEmpty && l.all isUnitCh

/-- Number of whitespace characters at position i of s. -/
def wsRunAt (s : List Char) (i : ℕ) : ℕ :=
  ((s.drop i).takeWhile isJsWs).length

/-- Length of the part-delimiter regex match at position i of s, if any;
the alternatives ws-star pipe ws-star, ws-two-or-more, ws-star colon
ws-star are tried in source order. -/
def delimAt (s : List Char) (i : ℕ) : Option ℕ :=
  let w := wsRunAt s i
  match (s.drop (i + w)).head? with
  | some '|' => some (w + 1 + wsRunAt s (i + w + 1))
  | _ =>
    if 2 ≤ w then some w
    else
      match (s.drop (i + w)).head? with
      | some ':' => some (w + 1 + wsRunAt s (i + w + 1))
      | _ => none

/-- Split s on the part-delimiter regex, scanning left to right; start is
the beginning of the current piece and i the scan position. The fuel only
serves termination. -/
def splitDelimsAux (s : List Char) (start i : ℕ) : ℕ → List (List Char)
  | 0 => [(s.drop start).take (i - start)]
  | fuel + 1 =>
    if i < s.length then
      match delimAt s i with
      | some len =>
        (s.drop start).take (i - start) ::
          splitDelimsAux s (i + len) (i + len) fuel
      | none => splitDelimsAux s start (i + 1) fuel
    else [s.drop start]

/-- Split on the part-delimiter regex of extractTestDataFromLine. -/
def splitDelims (s : List Char) : List (List Char) :=
  splitDelimsAux s 0 0 (s.length + 1)

/-! ## Flag normalization and findings -/

/-- Model of normalizeFlagWord. -/
def normalizeFlagWord (w : List Char) : String :=
  let lower := lowerL w
  if containsSub ("critical").data lower && containsSub ("high").data lower then
    "Critical High"
  else if containsSub ("critical").data lower && containsSub ("low").data lower then
    "Critical Low"
  else if containsSub ("high").data lower || containsSub ("above").data lower ||
      containsSub ("elevated").data lower then "High"
  else if containsSub ("low").data lower || containsSub ("below").data lower ||
      containsSub ("reduced").data lower then "Low"
  else
    match w with
    | [] => ""
    | c :: rest => strOf (c.toUpper :: lowerL rest)

/-- Model of deriveSeverity. -/
def deriveSeverity (w : List Char) : String :=
  let lower := lowerL w
  if containsSub ("critical").data lower then "critical"
  else if containsSub ("high").data lower || containsSub ("above").data lower ||
      containsSub ("elevated").data lower then "high"
  else if containsSub ("low").data lower || containsSub ("below").data lower ||
      containsSub ("reduced").data lower then "low"
  else ""

/-- A structured lab finding as emitted by the extractor; on these code
paths every field of the source object is a string. -/
structure Finding where
  test : String
  value : String
  unit : String
  referenceRange : String
  flag : String
  severity : String
  interpretation : String
deriving DecidableEq, Repr

/-! ## parseAbnormalRow -/

/-- Scanner for the parenthesized-reference pattern of parseAbnormalRow,
open [^close]* reference [^close]* close with the case-insensitive flag:
the first opener whose content, up to the first closer, mentions the word
reference; returns that content, the capture group of the regex. The fuel
argument only serves structural termination. -/
def parenRefContentFrom (s : List Char) (openCh closeCh : Char) : ℕ → ℕ →
    Option (List Char)
  | _, 0 => none
  | i, fuel + 1 =>
    if i < s.length then
      if (s.drop i).head? = some openCh then
        match (s.drop (i + 1)).findIdx? (· = closeCh) with
        | some j =>
          if containsSub ("reference").data (lowerL ((s.drop (i + 1)).take j)) then
            some ((s.drop (i + 1)).take j)
          else parenRefContentFrom s openCh closeCh (i + 1) fuel
        | none => parenRefContentFrom s openCh closeCh (i + 1) fuel
      else parenRefContentFrom s openCh closeCh (i + 1) fuel
    else none

/-- Leftmost match content of the parenthesized-reference pattern. -/
def parenRefContent (s : List Char) (openCh closeCh : Char) : Option (List Char) :=
  parenRefContentFrom s openCh closeCh 0 (s.length + 1)

/-- Capture group of the ref-label regex of parseAbnormalRow,
(?:ref|reference): ws-star ([0-9.s-dashes-t-o]+) with the
case-insensitive flag. When the run after the whitespace is empty the
only possible capture is a lone whitespace character, on which the inner
RANGE_REGEX always fails, so that corner is treated as no match. -/
def refLabelGroupFrom (s : List Char) : ℕ → ℕ → Option (List Char)
  | _, 0 => none
  | i, fuel + 1 =>
    if i < s.length then
      match
        (if ("ref:").data.isPrefixOf (lowerL (s.drop i)) then
          some (s.drop (i + 4))
        else if ("reference:").data.isPrefixOf (lowerL (s.drop i)) then
          some (s.drop (i + 10))
        else none) with
      | some rest =>
        match (rest.dropWhile isJsWs).takeWhile isRefClassCh with
        | [] => refLabelGroupFrom s (i + 1) fuel
        | grp => some grp
      | none => refLabelGroupFrom s (i + 1) fuel
    else none

/-- Leftmost capture of the ref-label regex. -/
def refLabelGroup (s : List Char) : Option (List Char) :=
  refLabelGroupFrom s 0 (s.length + 1)

/-- The final guard and record of parseAbnormalRow: no finding unless both
the test name and the value are non-empty. -/
def mkRowFinding (testName value unit referenceRange : List Char)
    (normalizedFlag sev : String) : Option Finding :=
  if testName.isEmpty || value.isEmpty then none
  else
    some {
      test := strOf testName
      value := strOf value
      unit := strOf unit
      referenceRange := strOf referenceRange
      flag := normalizedFlag
      severity := sev
      interpretation :=
        normalizedFlag ++ " value" ++
        (if referenceRange.isEmpty then ""
         else " (reference " ++ strOf referenceRange ++ ")")
    }

/-- The final guard and record of extractTestDataFromLine: no finding
unless both the accumulated test name and value are non-empty; the emitted
fields are trimmed. -/
def mkLineFinding (test value unit referenceRange : List Char)
    (flag sev : String) : Option Finding :=
  if test.isEmpty || value.isEmpty then none
  else
    some {
      test := strOf (jsTrimL test)
      value := strOf (jsTrimL value)
      unit := strOf (jsTrimL unit)
      referenceRange := strOf (jsTrimL referenceRange)
      flag := flag
      severity := sev
      interpretation :=
        flag ++ " value" ++
        (if referenceRange.isEmpty then ""
         else " (reference " ++ strOf referenceRange ++ ")")
    }

/-- Model of parseAbnormalRow (aiRoutes.js lines 220 to 293). -/
def parseAbnormalRow (row fallbackTest : List Char) : Option Finding :=
  match findFlag row with
  | none => none
  | some (idx, flagWord) =>
    if normalTest flagWord then none
    else
      let normalizedFlag := normalizeFlagWord flagWord
      let sev := deriveSeverity flagWord
      let working0 := jsTrimL (row.take idx)
      let rr1 := findRange working0
      let referenceRange :=
        match rr1 with
        | some (_, g1, g2, _) => fmtRange g1 g2
        | none =>
          let paren :=
            match parenRefContent working0 '(' ')' with
            | some c => some c
            | none => parenRefContent working0 '[' ']'
          let rrParen :=
            match paren with
            | some content =>
              match findRange content with
              | some (_, g1, g2, _) => some (fmtRange g1 g2)
              | none => none
            | none => none
          let rrLabel :=
            match refLabelGroup working0 with
            | some grp =>
              match findRange grp with
              | some (_, g1, g2, _) => some (fmtRange g1 g2)
              | none => none
            | none => none
          match rrLabel with
          | some r => r
          | none => match rrParen with | some r => r | none => []
      let working1 :=
        match rr1 with
        | some (ri, _, _, rlen) =>
          jsTrimL (working0.take ri ++ working0.drop (ri + rlen))
        | none => working0
      let vpair :=
        match (scanNumbers working1).getLast? with
        | some v =>
          match lastIdxOfSub working1 v with
          | some vi => (v, jsTrimL (working1.take vi))
          | none => (v, working1)
        | none => ([], working1)
      let upair :=
        match unitMatchEnd vpair.2 with
        | some (ui, u) => (u, jsTrimL (vpair.2.take ui))
        | none => ([], vpair.2)
      let testName0 := if upair.2.isEmpty then fallbackTest else upair.2
      let testName := jsTrimL (collapseWs2 testName0)
      mkRowFinding testName vpair.1 upair.1 referenceRange normalizedFlag sev

/-! ## extractTestDataFromLine -/

/-- Match at the head of l of the group-bearing core shared by the rescue
regexes, loose-number ws-star sep-class-char ws-star loose-number; the
separator here is a single character from the class dash, en dash, em
dash, t, o, since the source writes the class in brackets. Returns both
captures. -/
def simpleRangeAt (l : List Char) : Option (List Char × List Char) :=
  match numLooseAt l with
  | none => none
  | some (g1, r1) =>
    match r1.dropWhile isJsWs with
    | c :: r2 =>
      if isRangeSepCh c then
        match numLooseAt (r2.dropWhile isJsWs) with
        | some (g2, _) => some (g1, g2)
        | none => none
      else none
    | [] => none

/-- Leftmost match of the simple-range core in l; the fuel argument only
serves structural termination. -/
def findSimpleRangeFrom (l : List Char) : ℕ → ℕ →
    Option (List Char × List Char)
  | _, 0 => none
  | i, fuel + 1 =>
    if i < l.length then
      match simpleRangeAt (l.drop i) with
      | some g => some g
      | none => findSimpleRangeFrom l (i + 1) fuel
    else none

/-- Leftmost match of the simple-range core. -/
def findSimpleRange (l : List Char) : Option (List Char × List Char) :=
  findSimpleRangeFrom l 0 (l.length + 1)

/-- Scanner for the bracketed-range rescue of extractTestDataFromLine,
opener [^closers]* number ws-star sep-class ws-star number [^closers]*
closer: the first opener whose content, up to the first closer, contains
the simple-range core; returns the whole span of the match, opener and
closer included, on which the source then runs RANGE_REGEX. -/
def parenSpanFrom (s : List Char) : ℕ → ℕ → Option (List Char)
  | _, 0 => none
  | i, fuel + 1 =>
    if i < s.length then
      if (s.drop i).head? = some '(' || (s.drop i).head? = some '[' then
        match (s.drop (i + 1)).findIdx? (fun c => c = ')' || c = ']') with
        | some j =>
          if (findSimpleRange ((s.drop (i + 1)).take j)).isSome then
            some ((s.drop i).take (j + 2))
          else parenSpanFrom s (i + 1) fuel
        | none => parenSpanFrom s (i + 1) fuel
      else parenSpanFrom s (i + 1) fuel
    else none

/-- Leftmost span of the bracketed-range rescue. -/
def parenSpan (s : List Char) : Option (List Char) :=
  parenSpanFrom s 0 (s.length + 1)

/-- Keywords of the context-lines rescue regex, in source order. -/
def ctxKws : List (List Char) :=
  ["ref", "reference", "normal", "range"].map String.data

/-- Match of the context-lines rescue regex of extractTestDataFromLine,
(?:ref|reference|normal|range)[:ws]* number ws-star sep-class ws-star
number, on the already lowercased context; returns the two captures. -/
def contextRangeFrom (ctx : List Char) : ℕ → ℕ →
    Option (List Char × List Char)
  | _, 0 => none
  | i, fuel + 1 =>
    if i < ctx.length then
      match ctxKws.findSome? (fun kw =>
        if kw.isPrefixOf (lowerL (ctx.drop i)) then
          simpleRangeAt
            ((ctx.drop (i + kw.length)).dropWhile (fun c => c = ':' || isJsWs c))
        else none) with
      | some g => some g
      | none => contextRangeFrom ctx (i + 1) fuel
    else none

/-- Leftmost match of the context-lines rescue regex. -/
def contextRange (ctx : List Char) : Option (List Char × List Char) :=
  contextRangeFrom ctx 0 (ctx.length + 1)

/-- State of the parts loop of extractTestDataFromLine. -/
structure TDState where
  test : List Char
  value : List Char
  unit : List Char
  referenceRange : List Char

/-- One iteration of the parts loop of extractTestDataFromLine, with the
guards in source order; a part failing every guard and not qualifying as
test-name text leaves the state unchanged. -/
def tdStep (flagWord : List Char) (st : TDState) (part : List Char) : TDState :=
  if isNumericPart part && st.value.isEmpty then { st with value := part }
  else if (findRange part).isSome && st.referenceRange.isEmpty then
    { st with referenceRange :=
        match findRange part with
        | some (_, g1, g2, _) => fmtRange g1 g2
        | none => [] }
  else if isUnitPart part && st.unit.isEmpty && !st.value.isEmpty then
    { st with unit := part }
  else if flagTest part && part = flagWord then st
  else if st.value.isEmpty && st.referenceRange.isEmpty then
    { st with test := if st.test.isEmpty then part else st.test ++ ' ' :: part }
  else st

/-- Model of extractTestDataFromLine (aiRoutes.js lines 388 to 481). -/
def extractTestDataFromLine (line nextLine prevLine : List Char) :
    Option Finding :=
  match findFlag line with
  | none => none
  | some (_, flagWord) =>
    if normalTest flagWord then none
    else
      let parts := ((splitDelims line).map jsTrimL).filter (fun p => !p.isEmpty)
      let flag := normalizeFlagWord flagWord
      let st := parts.foldl (tdStep flagWord) ⟨[], [], [], []⟩
      let rr1 :=
        if st.referenceRange.isEmpty then
          match (parenSpan line).bind (fun span => findRange span) with
          | some (_, g1, g2, _) => fmtRange g1 g2
          | none => st.referenceRange
        else st.referenceRange
      let rr2 :=
        if rr1.isEmpty then
          match contextRange (lowerL (prevLine ++ ' ' :: nextLine)) with
          | some (g1, g2) => fmtRange g1 g2
          | none => rr1
        else rr1
      mkLineFinding st.test st.value st.unit rr2 flag (deriveSeverity flagWord)

/-! ## extractAbnormalFromText -/

/-- Does the line contain a digit. -/
def hasDigit (l : List Char) : Bool :=
  l.any isDigitCh

/-- Keywords of the header-skip regex of extractAbnormalFromText. -/
def headerKws : List (List Char) :=
  ["test", "parameter", "name", "value", "result", "unit", "reference",
   "normal", "range", "flag", "status"].map String.data

/-- Test of the header-skip regex, an anchored case-insensitive keyword
alternation. -/
def isHeaderLine (l : List Char) : Bool :=
  headerKws.any (fun kw => kw.isPrefixOf (lowerL l))

/-- The line cleaning of extractAbnormalFromText: split into lines,
collapse whitespace, trim, drop blank lines, separator-only lines and
lines of at most four characters. -/
def cleanLines (text : String) : List (List Char) :=
  ((splitNL text.data).map (fun l => jsTrimL (collapseWsAll l))).filter
    (fun l => !l.isEmpty &&
      !(l.all (fun c => c = '-' || c = '=' || c = '.' || c = '_')) &&
      3 < l.length)

/-- The preceding line passed to extractTestDataFromLine: at index zero
the source reads an undefined entry, defaulted to the empty string. -/
def prevLineAt (cls : List (List Char)) (i : ℕ) : List Char :=
  if i = 0 then [] else cls.getD (i - 1) []

/-- One index step of strategy one of extractAbnormalFromText; out of
range indices read as empty lines, matching the undefined-to-default
behaviour of the source. -/
def strategyOneStep (cls : List (List Char)) (acc : List Finding) (i : ℕ) :
    List Finding :=
  if isHeaderLine (cls.getD i []) && !hasDigit (cls.getD i []) then acc
  else if !hasDigit (cls.getD i []) then acc
  else
    match extractTestDataFromLine (cls.getD i []) (cls.getD (i + 1) [])
        (prevLineAt cls i) with
    | some f =>
      if f.flag != "" && !normalTest f.flag.data then acc ++ [f] else acc
    | none => acc

/-- Strategy one of extractAbnormalFromText, the line-local table scan. -/
def strategyOne (cls : List (List Char)) : List Finding :=
  (List.range cls.length).foldl (strategyOneStep cls) []

/-- The join of the line buffer of strategy two. -/
def joinSp (ls : List (List Char)) : List Char :=
  List.intercalate [' '] ls

/-- One line step of the buffer accumulation of strategy two. -/
def bufStep (st : List (List Char) × List (List Char)) (line : List Char) :
    List (List Char) × List (List Char) :=
  if !hasDigit line && st.1.isEmpty then (st.1 ++ [line], st.2)
  else
    let buf2 := if st.1.isEmpty then [line] else st.1 ++ [line]
    let joined := jsTrimL (joinSp buf2)
    if flagTest joined || normalTest joined || 180 < joined.length then
      (([] : List (List Char)),
       if flagTest joined && !normalTest joined then st.2 ++ [joined] else st.2)
    else (buf2, st.2)

/-- The flushed rows of strategy two. -/
def strategyTwoRows (cls : List (List Char)) : List (List Char) :=
  (cls.foldl bufStep ([], [])).2

/-- The case-insensitive trimmed key used for the test-name identity of
findings, toLowerCase then trim as in the source. -/
def lowerTrimStr (s : String) : List Char :=
  jsTrimL (lowerL s.data)

/-- One row step of the buffer-row parsing of strategy two: parse with the
last test name as fallback, drop findings whose test name is already
present, and update the fallback whenever the row parsed. -/
def rowStep (st : List Finding × List Char) (row : List Char) :
    List Finding × List Char :=
  match parseAbnormalRow row st.2 with
  | some p =>
    (if st.1.any (fun f => lowerTrimStr f.test = lowerTrimStr p.test) then st.1
     else st.1 ++ [p],
     p.test.data)
  | none => st

/-- Model of extractAbnormalFromText (aiRoutes.js lines 295 to 383): the
findings of strategy one, extended by the buffer rows of strategy two. -/
def extractAbnormalFromText (text : String) : List Finding :=
  ((strategyTwoRows (cleanLines text)).foldl rowStep
    (strategyOne (cleanLines text), [])).1

/-! ## JSON values and the consensus synthesis of consensusProvider.js -/

/-- JSON values; objects are ordered field lists, matching the insertion
order JS objects preserve for the string keys used here. -/
inductive Json where
  | null : Json
  | bool : Bool → Json
  | num : Int → Json
  | str : String → Json
  | arr : List Json → Json
  | obj : List (String × Json) → Json

/-- Minimal JSON string escaping, backslash and double quote; the control
character escapes of full JSON.stringify are not needed for the values
handled here and would not change any equality of distinct values. -/
def escapeJs (s : String) : String :=
  strOf (s.data.flatMap (fun c =>
    if c = '\\' then ['\\', '\\']
    else if c = '"' then ['\\', '"']
    else [c]))

mutual

/-- Model of JSON.stringify on the embedded values, used by the source as
the canonical serialization for vote keys and dedup keys. -/
def stringify : Json → String
  | Json.null => "null"
  | Json.bool b => if b then "true" else "false"
  | Json.num n => toString n
  | Json.str s => "\"" ++ escapeJs s ++ "\""
  | Json.arr xs => "[" ++ stringifyArr xs ++ "]"
  | Json.obj fs => "\x7b" ++ stringifyObj fs ++ "\x7d"

/-- Comma-joined serialization of array elements. -/
def stringifyArr : List Json → String
  | [] => ""
  | [x] => stringify x
  | x :: y :: xs => stringify x ++ "," ++ stringifyArr (y :: xs)

/-- Comma-joined serialization of object fields. -/
def stringifyObj : List (String × Json) → String
  | [] => ""
  | [(k, v)] => "\"" ++ escapeJs k ++ "\":" ++ stringify v
  | (k, v) :: f :: fs =>
    "\"" ++ escapeJs k ++ "\":" ++ stringify v ++ "," ++ stringifyObj (f :: fs)

end

/-- A parsed JSON object, the payload of one provider response. -/
abbrev JObj := List (String × Json)

/-- JS property read on a parsed object. -/
def jLookup (o : JObj) (key : String) : Option Json :=
  (o.find? (fun f => f.1 = key)).map (fun f => f.2)

/-- One vote bucket of fieldVotes: the serialized value, its vote count,
and the value itself. The sources array of the code is dropped as it never
influences the result. -/
structure VoteEntry where
  valueStr : String
  count : ℕ
  value : Json

/-- Record one vote, incrementing the bucket keyed by the serialization or
opening a new bucket at the end, as in the vote-counting loop. -/
def addVote (votes : List VoteEntry) (v : Json) : List VoteEntry :=
  let key := stringify v
  if votes.any (fun e => e.valueStr = key) then
    votes.map (fun e =>
      if e.valueStr = key then { e with count := e.count + 1 } else e)
  else votes ++ [⟨key, 1, v⟩]

/-- The vote buckets of one top-level key across the parsed responses, in
first-seen order; this is the per-key view of the fieldVotes table built
by synthesizeJsonConsensus lines 141 to 153, with parsed listed in
provider priority order. -/
def voteTally (parsed : List JObj) (key : String) : List VoteEntry :=
  parsed.foldl (fun votes o =>
    match jLookup o key with
    | some v => addVote votes v
    | none => votes) []

/-- The value selection of synthesizeJsonConsensus lines 156 to 170 for
one key: sort the buckets by descending count with the stable engine sort,
modelled by the stable insertion sort; take the top bucket when it has at
least two votes or only one response parsed, otherwise fall back to the
value of the first (highest-priority) parsed response, dropping the key
when that response does not carry it. -/
def consensusValueForKey (parsed : List JObj) (key : String) : Option Json :=
  match List.insertionSort
      (fun a b : VoteEntry => b.count ≤ a.count) (voteTally parsed key) with
  | [] => none
  | top :: _ =>
    if 2 ≤ top.count ∨ parsed.length = 1 then some top.value
    else
      match parsed with
      | [] => none
      | first :: _ => jLookup first key

/-- All top-level keys observed across the parsed responses in first-seen
order, the iteration order of the fieldVotes table. -/
def observedKeys (parsed : List JObj) : List String :=
  parsed.foldl (fun ks o =>
    o.foldl (fun ks kv => if ks.contains kv.1 then ks else ks ++ [kv.1]) ks) []

/-- The merged object before the array-union pass. -/
def mergedBeforeArrays (parsed : List JObj) : JObj :=
  (observedKeys parsed).filterMap (fun k =>
    match consensusValueForKey parsed k with
    | some v => some (k, v)
    | none => none)

/-- All sequence items the parsed responses carry for a key, in response
order, as collected by the array-union pass. -/
def collectArrayItems (parsed : List JObj) (key : String) : List Json :=
  parsed.flatMap (fun o =>
    match jLookup o key with
    | some (Json.arr xs) => xs
    | _ => [])

/-- The dedup key of the array-union pass: strings collide with their raw
text, everything else with its serialization. -/
def itemKey : Json → String
  | Json.str s => s
  | j => stringify j

/-- De-duplicate by the dedup key, keeping first occurrences in order. -/
def dedupByItemKey (items : List Json) : List Json :=
  (items.foldl (fun (acc : List Json × List String) item =>
    if acc.2.contains (itemKey item) then acc
    else (acc.1 ++ [item], acc.2 ++ [itemKey item])) ([], [])).1

/-- Model of the merged object built by synthesizeJsonConsensus
(consensusProvider.js lines 113 to 196) from the successfully parsed
responses, listed in provider priority order: majority vote per key, then
the array-union pass replacing every array value by the de-duplicated
union of all responses. -/
def synthesizeJsonConsensus (parsed : List JObj) : JObj :=
  (mergedBeforeArrays parsed).map (fun kv =>
    match kv.2 with
    | Json.arr _ => (kv.1, Json.arr (dedupByItemKey (collectArrayItems parsed kv.1)))
    | _ => kv)

/-! ## Fallback orchestrator, generateAIResponse -/

/-- Errors of the fallback orchestrator: either no provider is configured
or every provider failed, the latter carrying the last error message. -/
inductive GenError where
  | noProviders : GenError
  | allFailed : Option String → GenError
deriving DecidableEq, Repr

/-- The provider loop of generateAIResponse: call each provider once in
priority order and return the trace of attempted providers together with
the first success or, on exhaustion, the last error. The rate-limit and
authentication classifications of the source only affect logging; every
failure branch continues to the next provider. -/
def tryProviders (call : α → Except String String) :
    List α → List α × Except (Option String) (String × α)
  | [] => ([], Except.error none)
  | p :: rest =>
    match call p with
    | Except.ok c => ([p], Except.ok (c, p))
    | Except.error e =>
      match tryProviders call rest with
      | (t, Except.ok r) => (p :: t, Except.ok r)
      | (t, Except.error le) => (p :: t, Except.error (some (le.getD e)))

/-- Model of generateAIResponse (aiProvider.js lines 155 to 250): fail
fast when no provider is configured, otherwise run the fallback loop; the
result pairs the trace of attempted providers with the outcome. -/
def generateAIResponse (providers : List α) (call : α → Except String String) :
    List α × Except GenError (String × α) :=
  if providers.isEmpty then ([], Except.error GenError.noProviders)
  else
    match tryProviders call providers with
    | (t, Except.ok r) => (t, Except.ok r)
    | (t, Except.error le) => (t, Except.error (GenError.allFailed le))

/-! ## Transport adapters -/

/-- Content handling of callOpenRouter on a 2xx response (lines 440 to
447): a missing, empty or whitespace-only assistant text is a thrown
error, otherwise the text is returned. -/
def openRouterExtractContent (content : Option String) : Except String String :=
  match content with
  | none => Except.error "OpenRouter returned empty response"
  | some c =>
    if (jsTrimL c.data).isEmpty then
      Except.error "OpenRouter returned empty response"
    else Except.ok c

/-- Content handling of callGroq on a successful completion (line 611):
the assistant text is returned as-is when truthy, and the literal
two-character braces string is substituted when the text is missing or
empty; the adapter never fails on empty content. -/
def groqExtractContent (content : Option String) : String :=
  match content with
  | some c => if c = "" then "\x7b\x7d" else c
  | none => "\x7b\x7d"

/-- The model-not-found classification of the Groq model loop. -/
def isGroqModelNotFound (e : String) : Bool :=
  containsSub ("decommissioned").data e.data ||
  containsSub ("not found").data e.data ||
  containsSub ("404").data e.data

/-- Model of the model-fallback loop of callGroq (lines 584 to 622): api
yields, per model name, either the optional assistant text of a 2xx
completion or an error message; model-not-found errors continue with the
next model, any other error is rethrown, and exhaustion raises the
all-models-failed error (whose interpolated last-error text is elided). -/
def callGroq (api : String → Except String (Option String)) :
    List String → Except String String
  | [] => Except.error "All Groq models failed"
  | m :: rest =>
    match api m with
    | Except.ok content => Except.ok (groqExtractContent content)
    | Except.error e =>
      if isGroqModelNotFound e then callGroq api rest
      else Except.error e

/-- Request temperature sent by callOpenRouter, clamped into the closed
interval from zero to two (line 412). -/
def openRouterTemperature (t : ℚ) : ℚ :=
  max 0 (min 2 t)

/-- Request max_tokens sent by callOpenRouter, clamped into one to 32000
(line 413). -/
def openRouterMaxTokens (m : ℤ) : ℤ :=
  max 1 (min 32000 m)

/-- Request temperature sent by callGroq (line 607): the caller value with
default 0.2 and no clamping. -/
def groqTemperature (t : Option ℚ) : ℚ :=
  t.getD (1 / 5)

/-- Request max_tokens sent by callGroq (line 608): the caller value with
default 4000 and no clamping. -/
def groqMaxTokens (m : Option ℤ) : ℤ :=
  m.getD 4000

/-- Request temperature sent by callOpenAI (line 766), an unclamped
passthrough with default 0.2. -/
def openAITemperature (t : Option ℚ) : ℚ :=
  t.getD (1 / 5)

/-- Request max_tokens sent by callOpenAI (line 767), an unclamped
passthrough with default 4000. -/
def openAIMaxTokens (m : Option ℤ) : ℤ :=
  m.getD 4000

/-- Request max_new_tokens sent by callHuggingFace (line 663), capped
above at 2000 but not below. -/
def huggingFaceMaxNewTokens (m : Option ℤ) : ℤ :=
  min (m.getD 2000) 2000

/-! ## Provider registry reordering -/

/-- A provider descriptor; the client handle of the source is irrelevant
to ordering and omitted. -/
structure ProviderDesc where
  name : String
  model : String
deriving DecidableEq, Repr

/-- The JS constant Number.MAX_SAFE_INTEGER. -/
def MAX_SAFE_INTEGER : ℕ :=
  2 ^ 53 - 1

/-- The (name, index) pairs of preferredOrder.map, from the given starting
index. -/
def orderPairs : List String → ℕ → List (String × ℕ)
  | [], _ => []
  | n :: rest, i => (n, i) :: orderPairs rest (i + 1)

/-- Lookup in the Map built from the (name, index) pairs; with duplicate
names the later entry wins, modelled by searching the reversed pair
list. -/
def orderMapGet (po : List String) (n : String) : Option ℕ :=
  (((orderPairs po 0).reverse.find? (fun p => p.1 = n))).map (fun p => p.2)

/-- The comparator rank of a provider name, MAX_SAFE_INTEGER for names
absent from the preferred order. -/
def rankOf (po : List String) (n : String) : ℕ :=
  (orderMapGet po n).getD MAX_SAFE_INTEGER

/-- The preferred-order resort of getAvailableProviders (lines 325 to
335): an empty preferred order returns the built list as-is, otherwise
the list is stably sorted by ascending rank; the stable engine sort is
modelled by the stable insertion sort. The construction of the
default-priority list from the environment (lines 254 to 323) is
abstracted into the providers input. -/
def getAvailableProviders (providers : List ProviderDesc)
    (preferredOrder : List String) : List ProviderDesc :=
  if preferredOrder.isEmpty then providers
  else
    List.insertionSort
      (fun a b => rankOf preferredOrder a.name ≤ rankOf preferredOrder b.name)
      providers

/-! ## Finding merge of interpretReport -/

/-- The test-name match of the merge loop of interpretReport (lines 1511
to 1514): both names truthy and equal after lowercasing and trimming. -/
def findingMatches (f ext : Finding) : Bool :=
  f.test != "" && ext.test != "" &&
  lowerTrimStr f.test == lowerTrimStr ext.test

/-- Merge one extracted finding into the current merged list: the first
matching finding has its reference range patched when the extracted one
is non-empty and the existing one empty, and is otherwise untouched;
none signals that no finding matched. -/
def mergeInto (ext : Finding) : List Finding → Option (List Finding)
  | [] => none
  | f :: fs =>
    if findingMatches f ext then
      some ((if ext.referenceRange != "" && f.referenceRange == "" then
               { f with referenceRange := ext.referenceRange }
             else f) :: fs)
    else (mergeInto ext fs).map (fun l => f :: l)

/-- One iteration of the merge loop: patch the first match or append the
extracted finding as new. -/
def mergeStep (acc : List Finding) (ext : Finding) : List Finding :=
  match mergeInto ext acc with
  | some acc2 => acc2
  | none => acc ++ [ext]

/-- Model of the finding merge of interpretReport (lines 1506 to 1532):
fold the extracted findings into the AI findings. -/
def mergeFindings (abnormal extracted : List Finding) : List Finding :=
  extracted.foldl mergeStep abnormal

/-! ## Normalization of abnormal_values in interpretReport -/

/-- JS truthiness of a JSON value. -/
def jTruthy : Json → Bool
  | Json.null => false
  | Json.bool b => b
  | Json.num n => n != 0
  | Json.str s => s != ""
  | Json.arr _ => true
  | Json.obj _ => true

/-- JS property read on a JSON value; reads on non-objects yield
undefined. -/
def jGet (v : Json) (k : String) : Option Json :=
  match v with
  | Json.obj fs => jLookup fs k
  | _ => none

/-- The first truthy value of a JS or-chain of property reads, with the
given default. -/
def firstTruthy (xs : List (Option Json)) (dflt : Json) : Json :=
  match xs with
  | [] => dflt
  | some j :: rest => if jTruthy j then j else firstTruthy rest dflt
  | none :: rest => firstTruthy rest dflt

mutual

/-- JS String() conversion of the embedded JSON values; arrays join their
elements with commas, null elements converting to the empty string, and
objects convert to the object-Object tag. -/
def jToString : Json → String
  | Json.null => "null"
  | Json.bool b => if b then "true" else "false"
  | Json.num n => toString n
  | Json.str s => s
  | Json.arr xs => jToStringArr xs
  | Json.obj _ => "[object Object]"

/-- Comma join of array elements under String() conversion. -/
def jToStringArr : List Json → String
  | [] => ""
  | [x] =>
    (match x with
     | Json.null => ""
     | x2 => jToString x2)
  | x :: y :: xs =>
    (match x with
     | Json.null => ""
     | x2 => jToString x2) ++ "," ++ jToStringArr (y :: xs)

end

/-- A finding as produced by the abnormal_values normalization of
interpretReport (lines 1466 to 1489); the source copies the JSON field
values raw, String()-converting only the value field, so the fields stay
JSON values here. -/
structure RawFinding where
  test : Json
  value : Json
  unit : Json
  referenceRange : Json
  interpretation : Json
  flag : Json
  severity : Json

/-- Normalization of one abnormal_values entry by interpretReport (lines
1467 to 1488), including the rescue that greps a missing reference range
out of the interpretation text. -/
def normalizeAbnormalValue (v : Json) : RawFinding :=
  let rr0 := firstTruthy [jGet v "reference_range", jGet v "referenceRange",
    jGet v "range", jGet v "reference", jGet v "ref_range"] (Json.str "")
  let rr :=
    if !jTruthy rr0 then
      match jGet v "interpretation" with
      | some iv =>
        if jTruthy iv then
          match findSimpleRange (jToString iv).data with
          | some (g1, g2) => Json.str (strOf (fmtRange g1 g2))
          | none => rr0
        else rr0
      | none => rr0
    else rr0
  { test := firstTruthy [jGet v "test", jGet v "name"] (Json.str "")
    value :=
      match jGet v "value" with
      | some jv => if jTruthy jv then Json.str (jToString jv) else Json.str ""
      | none => Json.str ""
    unit := firstTruthy [jGet v "unit", jGet v "units"] (Json.str "")
    referenceRange := rr
    interpretation :=
      firstTruthy [jGet v "interpretation", jGet v "meaning"] (Json.str "")
    flag := firstTruthy [jGet v "flag", jGet v "status"] (Json.str "")
    severity := firstTruthy [jGet v "severity", jGet v "level"] (Json.str "") }

/-- Normalization of the whole abnormal_values field: map over an array,
anything else normalizes to the empty list. -/
def normalizeAbnormalValues (j : Json) : List RawFinding :=
  match j with
  | Json.arr xs => xs.map normalizeAbnormalValue
  | _ => []

/-- Specification-side maximum vote count of a bucket list, used to state
the voting policy. -/
def maxCount (votes : List VoteEntry) : ℕ :=
  votes.foldr (fun e m => max e.count m) 0

/-! ## Helper lemmas on the string primitives -/

theorem mem_dropWhile_of_neg {α} {p : α → Bool} {c : α} (hc : p c = false) :
    ∀ {l : List α}, c ∈ l → c ∈ l.dropWhile p := by
  intro l
  induction l with
  | nil => intro h; exact absurd h (List.not_mem_nil c)
  | cons a l ih =>
    intro h
    rw [List.dropWhile_cons]
    by_cases ha : p a = true
    · simp only [ha, if_true]
      rcases List.mem_cons.mp h with rfl | h2
      · rw [hc] at ha; cases ha
      · exact ih h2
    · simp only [Bool.not_eq_true] at ha
      simp only [ha, Bool.false_eq_true, if_false]
      exact h

theorem head_dropWhile_neg {α} (p : α → Bool) :
    ∀ (l : List α) {c : α}, (l.dropWhile p).head? = some c → p c = false := by
  intro l
  induction l with
  | nil => intro c h; cases h
  | cons a l ih =>
    intro c h
    rw [List.dropWhile_cons] at h
    by_cases ha : p a = true
    · rw [if_pos ha] at h
      exact ih h
    · simp only [Bool.not_eq_true] at ha
      rw [ha] at h
      simp only [Bool.false_eq_true, if_false, List.head?_cons,
        Option.some.injEq] at h
      rw [← h]
      exact ha

theorem mem_jsTrimL {l : List Char} {c : Char} (hc : isJsWs c = false)
    (h : c ∈ l) : c ∈ jsTrimL l := by
  unfold jsTrimL
  exact List.mem_reverse.mpr
    (mem_dropWhile_of_neg hc (List.mem_reverse.mpr (mem_dropWhile_of_neg hc h)))

theorem jsTrimL_ne_nil {l : List Char} (h : ∃ c ∈ l, isJsWs c = false) :
    jsTrimL l ≠ [] := by
  obtain ⟨c, hm, hc⟩ := h
  exact List.ne_nil_of_mem (mem_jsTrimL hc hm)

theorem exists_nonWs_of_jsTrimL_ne_nil {l : List Char} (h : jsTrimL l ≠ []) :
    ∃ c ∈ jsTrimL l, isJsWs c = false := by
  have hB : (l.dropWhile isJsWs).reverse.dropWhile isJsWs ≠ [] := by
    intro h0
    exact h (by unfold jsTrimL; rw [h0]; rfl)
  obtain ⟨c, B', hcons⟩ := List.exists_cons_of_ne_nil hB
  refine ⟨c, ?_, ?_⟩
  · unfold jsTrimL
    rw [hcons]
    exact List.mem_reverse.mpr (List.mem_cons_self c B')
  · exact head_dropWhile_neg isJsWs _ (by rw [hcons]; rfl)

theorem dropWhile_eq_self_of_all {α} {p : α → Bool} {l : List α}
    (h : ∀ c ∈ l, p c = false) : l.dropWhile p = l := by
  cases l with
  | nil => rfl
  | cons a l =>
    rw [List.dropWhile_cons, h a (List.mem_cons_self a l)]
    simp

theorem jsTrimL_eq_self {l : List Char} (h : ∀ c ∈ l, isJsWs c = false) :
    jsTrimL l = l := by
  unfold jsTrimL
  rw [dropWhile_eq_self_of_all h,
    dropWhile_eq_self_of_all (fun c hc => h c (List.mem_reverse.mp hc)),
    List.reverse_reverse]

theorem strOf_ne_empty {l : List Char} (h : l ≠ []) : strOf l ≠ "" := by
  intro he
  exact h (by simpa [strOf] using congrArg String.data he)

theorem isJsWs_false_of_digit {c : Char} (h : isDigitCh c = true) :
    isJsWs c = false := by
  simp only [isDigitCh, Bool.and_eq_true, decide_eq_true_eq] at h
  simp only [isJsWs, Bool.or_eq_false_iff, decide_eq_false_iff_not]
  omega

theorem isNumericPart_chars {l : List Char} (h : isNumericPart l = true) :
    ∀ c ∈ l, isJsWs c = false := by
  intro c hc
  unfold isNumericPart at h
  simp only [Bool.and_eq_true, Bool.or_eq_true, Bool.not_eq_true'] at h
  have hdd : ∀ d : List Char, (∀ x ∈ d, isDigitCh x = true) → c ∈ d →
      isJsWs c = false := fun d hd hm => isJsWs_false_of_digit (hd c hm)
  -- split l into the optional dash and the numeric body l1
  by_cases hh : l.head? = some '-'
  · cases l with
    | nil => cases hc
    | cons a t =>
      have ha : a = '-' := by
        simpa using hh
      have hl1 : (if (a :: t).head? = some '-' then (a :: t).tail else a :: t)
          = t := by
        simp [hh]
      rw [hl1] at h
      rcases List.mem_cons.mp hc with rfl | hct
      · rw [ha]; decide
      · -- c is in the numeric body t
        have hbody : t = t.takeWhile isDigitCh ++ t.dropWhile isDigitCh :=
          (List.takeWhile_append_dropWhile _ _).symm
        rcases List.mem_append.mp (hbody ▸ hct) with hc1 | hc2
        · exact hdd _ (fun x hx => List.mem_takeWhile_imp hx) hc1
        · rcases h.2 with hemp | hdot
          · rw [List.isEmpty_iff] at hemp
            rw [hemp] at hc2
            cases hc2
          · obtain ⟨hhead, htail⟩ := hdot
            have hbeq : (t.dropWhile isDigitCh).head? = some '.' := by
              simpa using hhead
            cases hdw : t.dropWhile isDigitCh with
            | nil => rw [hdw] at hc2; cases hc2
            | cons b r =>
              rw [hdw] at hbeq hc2
              simp only [List.head?_cons, Option.some.injEq] at hbeq
              rcases List.mem_cons.mp hc2 with rfl | hcr
              · rw [hbeq]; decide
              · have := htail
                rw [hdw] at this
                simp only [List.tail_cons, List.all_eq_true] at this
                exact hdd _ this hcr
  · have hl1 : (if l.head? = some '-' then l.tail else l) = l := by
      simp [hh]
    rw [hl1] at h
    have hbody : l = l.takeWhile isDigitCh ++ l.dropWhile isDigitCh :=
      (List.takeWhile_append_dropWhile _ _).symm
    rcases List.mem_append.mp (hbody ▸ hc) with hc1 | hc2
    · exact hdd _ (fun x hx => List.mem_takeWhile_imp hx) hc1
    · rcases h.2 with hemp | hdot
      · rw [List.isEmpty_iff] at hemp
        rw [hemp] at hc2
        cases hc2
      · obtain ⟨hhead, htail⟩ := hdot
        cases hdw : l.dropWhile isDigitCh with
        | nil => rw [hdw] at hc2; cases hc2
        | cons b r =>
          have hbeq : (l.dropWhile isDigitCh).head? = some '.' := by
            simpa using hhead
          rw [hdw] at hbeq hc2
          simp only [List.head?_cons, Option.some.injEq] at hbeq
          rcases List.mem_cons.mp hc2 with rfl | hcr
          · rw [hbeq]; decide
          · have := htail
            rw [hdw] at this
            simp only [List.tail_cons, List.all_eq_true] at this
            exact hdd _ this hcr

theorem foldl_preserve {σ α : Type} {P : σ → Prop} {Q : α → Prop}
    {step : σ → α → σ}
    (hstep : ∀ s a, P s → Q a → P (step s a)) :
    ∀ {l : List α} {s : σ}, P s → (∀ a ∈ l, Q a) → P (l.foldl step s) := by
  intro l
  induction l with
  | nil => intro s hs _; exact hs
  | cons a l ih =>
    intro s hs hq
    exact ih (hstep s a hs (hq a (List.mem_cons_self a l)))
      (fun b hb => hq b (List.mem_cons.mpr (Or.inr hb)))

/-! ## Non-emptiness of extractor findings -/

theorem mkRowFinding_good {t v u rr : List Char} {nf sv : String} {f : Finding}
    (h : mkRowFinding t v u rr nf sv = some f) :
    f.test ≠ "" ∧ f.value ≠ "" := by
  unfold mkRowFinding at h
  split at h
  · cases h
  · rename_i hcond
    simp only [Bool.or_eq_true, not_or, List.isEmpty_iff] at hcond
    obtain ⟨ht, hv⟩ := hcond
    cases h
    exact ⟨strOf_ne_empty ht, strOf_ne_empty hv⟩

theorem mkLineFinding_good {t v u rr : List Char} {fl sv : String} {f : Finding}
    (h : mkLineFinding t v u rr fl sv = some f)
    (ht : t ≠ [] → ∃ c ∈ t, isJsWs c = false)
    (hv : v ≠ [] → isNumericPart v = true) :
    f.test ≠ "" ∧ f.value ≠ "" := by
  unfold mkLineFinding at h
  split at h
  · cases h
  · rename_i hcond
    simp only [Bool.or_eq_true, not_or, List.isEmpty_iff] at hcond
    obtain ⟨htne, hvne⟩ := hcond
    cases h
    constructor
    · exact strOf_ne_empty (jsTrimL_ne_nil (ht htne))
    · have hvchars := isNumericPart_chars (hv hvne)
      rw [jsTrimL_eq_self hvchars]
      exact strOf_ne_empty hvne

theorem tdStep_inv {fw : List Char} {st : TDState} {part : List Char}
    (hst : (st.test ≠ [] → ∃ c ∈ st.test, isJsWs c = false) ∧
      (st.value ≠ [] → isNumericPart st.value = true))
    (hp : ∃ c ∈ part, isJsWs c = false) :
    ((tdStep fw st part).test ≠ [] →
      ∃ c ∈ (tdStep fw st part).test, isJsWs c = false) ∧
    ((tdStep fw st part).value ≠ [] →
      isNumericPart (tdStep fw st part).value = true) := by
  obtain ⟨h1, h2⟩ := hst
  unfold tdStep
  split
  · rename_i hcond
    simp only [Bool.and_eq_true, List.isEmpty_iff] at hcond
    exact ⟨h1, fun _ => hcond.1⟩
  · split
    · exact ⟨h1, h2⟩
    · split
      · exact ⟨h1, h2⟩
      · split
        · exact ⟨h1, h2⟩
        · split
          · refine ⟨fun _ => ?_, h2⟩
            obtain ⟨c, hcm, hcw⟩ := hp
            by_cases hte : st.test.isEmpty
            · simp only [hte, if_true]
              exact ⟨c, hcm, hcw⟩
            · simp only [hte, Bool.false_eq_true, if_false]
              exact ⟨c, List.mem_append_right _ (List.mem_cons.mpr (Or.inr hcm)),
                hcw⟩
          · exact ⟨h1, h2⟩

theorem parts_nonWs (line : List Char) :
    ∀ p ∈ ((splitDelims line).map jsTrimL).filter (fun p => !p.isEmpty),
      ∃ c ∈ p, isJsWs c = false := by
  intro p hp
  rw [List.mem_filter] at hp
  obtain ⟨hp1, hp2⟩ := hp
  obtain ⟨q, _, rfl⟩ := List.mem_map.mp hp1
  refine exists_nonWs_of_jsTrimL_ne_nil ?_
  simpa [List.isEmpty_iff] using hp2

theorem extractTestDataFromLine_good {line next prev : List Char} {f : Finding}
    (h : extractTestDataFromLine line next prev = some f) :
    f.test ≠ "" ∧ f.value ≠ "" := by
  unfold extractTestDataFromLine at h
  split at h
  · cases h
  · rename_i idx fw heq
    split at h
    · cases h
    · have hinv := @foldl_preserve TDState (List Char)
        (fun st => (st.test ≠ [] → ∃ c ∈ st.test, isJsWs c = false) ∧
          (st.value ≠ [] → isNumericPart st.value = true))
        (fun p => ∃ c ∈ p, isJsWs c = false)
        (tdStep fw)
        (fun s a hs ha => tdStep_inv hs ha)
        (((splitDelims line).map jsTrimL).filter (fun p => !p.isEmpty))
        ⟨[], [], [], []⟩
        ⟨fun hne => absurd rfl hne, fun hne => absurd rfl hne⟩
        (parts_nonWs line)
      exact mkLineFinding_good h hinv.1 hinv.2

theorem parseAbnormalRow_good {row fb : List Char} {f : Finding}
    (h : parseAbnormalRow row fb = some f) :
    f.test ≠ "" ∧ f.value ≠ "" := by
  unfold parseAbnormalRow at h
  split at h
  · cases h
  · split at h
    · cases h
    · exact mkRowFinding_good h

theorem strategyOneStep_good {cls : List (List Char)} {acc : List Finding}
    {i : ℕ} (hacc : ∀ f ∈ acc, f.test ≠ "" ∧ f.value ≠ "") :
    ∀ f ∈ strategyOneStep cls acc i, f.test ≠ "" ∧ f.value ≠ "" := by
  intro f hf
  unfold strategyOneStep at hf
  split at hf
  · exact hacc f hf
  · split at hf
    · exact hacc f hf
    · split at hf
      · rename_i f0 heq
        split at hf
        · rcases List.mem_append.mp hf with hl | hr
          · exact hacc f hl
          · rw [List.mem_singleton] at hr
            subst hr
            exact extractTestDataFromLine_good heq
        · exact hacc f hf
      · exact hacc f hf

theorem strategyOne_good (cls : List (List Char)) :
    ∀ f ∈ strategyOne cls, f.test ≠ "" ∧ f.value ≠ "" := by
  unfold strategyOne
  exact @foldl_preserve (List Finding) ℕ
    (fun acc => ∀ f ∈ acc, f.test ≠ "" ∧ f.value ≠ "") (fun _ => True)
    (strategyOneStep cls)
    (fun acc i hacc _ => strategyOneStep_good hacc)
    (List.range cls.length) []
    (fun f hf => absurd hf (List.not_mem_nil f))
    (fun _ _ => trivial)

theorem rowStep_good {st : List Finding × List Char} {row : List Char}
    (h1 : ∀ f ∈ st.1, f.test ≠ "" ∧ f.value ≠ "") :
    ∀ f ∈ (rowStep st row).1, f.test ≠ "" ∧ f.value ≠ "" := by
  intro f hf
  unfold rowStep at hf
  split at hf
  · rename_i p heq
    split at hf
    · exact h1 f hf
    · rcases List.mem_append.mp hf with hl | hr
      · exact h1 f hl
      · rw [List.mem_singleton] at hr
        subst hr
        exact parseAbnormalRow_good heq
  · exact h1 f hf

theorem extractAbnormalFromText_good (text : String) :
    ∀ f ∈ extractAbnormalFromText text, f.test ≠ "" ∧ f.value ≠ "" := by
  unfold extractAbnormalFromText
  have h := @foldl_preserve (List Finding × List Char) (List Char)
    (fun st => ∀ f ∈ st.1, f.test ≠ "" ∧ f.value ≠ "") (fun _ => True)
    rowStep
    (fun st row hst _ => rowStep_good hst)
    (strategyTwoRows (cleanLines text))
    (strategyOne (cleanLines text), [])
    (strategyOne_good (cleanLines text))
    (fun _ _ => trivial)
  exact h

/-! ## The voting policy of synthesizeJsonConsensus -/

theorem le_maxCount {votes : List VoteEntry} {e : VoteEntry} (h : e ∈ votes) :
    e.count ≤ maxCount votes := by
  induction votes with
  | nil => cases h
  | cons a l ih =>
    have hm : maxCount (a :: l) = max a.count (maxCount l) := rfl
    rcases List.mem_cons.mp h with rfl | h2
    · rw [hm]; exact le_max_left _ _
    · rw [hm]; exact le_trans (ih h2) (le_max_right _ _)

theorem insertionSort_ne_nil (r : VoteEntry → VoteEntry → Prop)
    [DecidableRel r] {votes : List VoteEntry} (h : votes ≠ []) :
    List.insertionSort r votes ≠ [] := by
  intro h0
  apply h
  have hlen := congrArg List.length h0
  rw [List.length_insertionSort] at hlen
  exact List.length_eq_zero.mp hlen

theorem head_insertionSort_desc :
    ∀ {votes : List VoteEntry}, votes ≠ [] →
      (List.insertionSort (fun a b : VoteEntry => b.count ≤ a.count)
        votes).head?
        = votes.find? (fun e => maxCount votes ≤ e.count) := by
  intro votes
  induction votes with
  | nil => intro h; exact absurd rfl h
  | cons x l ih =>
    intro _
    cases l with
    | nil =>
      have hmx : maxCount [x] = x.count := by
        show max x.count 0 = x.count
        exact Nat.max_zero x.count
      simp [List.insertionSort, List.orderedInsert, List.find?_cons, hmx]
    | cons y m =>
      have IH := ih (List.cons_ne_nil y m)
      have h0 : List.insertionSort
          (fun a b : VoteEntry => b.count ≤ a.count) (y :: m) ≠ [] :=
        insertionSort_ne_nil _ (List.cons_ne_nil y m)
      obtain ⟨h, t, hs⟩ := List.exists_cons_of_ne_nil h0
      have hfind : (y :: m).find? (fun e => maxCount (y :: m) ≤ e.count)
          = some h := by
        rw [← IH, hs]; rfl
      have hmem : h ∈ y :: m := List.mem_of_find?_eq_some hfind
      have hmax_le : maxCount (y :: m) ≤ h.count := by
        have hp := List.find?_some hfind
        simpa using hp
      have hcnt : h.count = maxCount (y :: m) :=
        le_antisymm (le_maxCount hmem) hmax_le
      have hmcons : maxCount (x :: y :: m) = max x.count (maxCount (y :: m)) :=
        rfl
      show (List.orderedInsert (fun a b : VoteEntry => b.count ≤ a.count) x
        (List.insertionSort (fun a b : VoteEntry => b.count ≤ a.count)
          (y :: m))).head? = _
      rw [hs]
      by_cases hxh : h.count ≤ x.count
      · have hord : List.orderedInsert
            (fun a b : VoteEntry => b.count ≤ a.count) x (h :: t)
            = x :: h :: t := by
          rw [List.orderedInsert]
          exact if_pos hxh
        rw [hord]
        have hmx : maxCount (x :: y :: m) = x.count := by
          rw [hmcons]
          exact max_eq_left (hcnt ▸ hxh)
        rw [List.find?_cons]
        have : (decide (maxCount (x :: y :: m) ≤ x.count)) = true := by
          rw [hmx]; exact decide_eq_true (le_refl x.count)
        rw [this]
        rfl
      · have hxlt : x.count < h.count := not_le.mp hxh
        have hmx : maxCount (x :: y :: m) = maxCount (y :: m) := by
          rw [hmcons]
          exact max_eq_right (le_of_lt (hcnt ▸ hxlt))
        have hord : List.orderedInsert
            (fun a b : VoteEntry => b.count ≤ a.count) x (h :: t)
            = h :: List.orderedInsert
              (fun a b : VoteEntry => b.count ≤ a.count) x t := by
          rw [List.orderedInsert]
          exact if_neg hxh
        rw [hord]
        have hxfalse : (decide (maxCount (x :: y :: m) ≤ x.count)) = false := by
          rw [hmx]
          exact decide_eq_false (not_le.mpr (hcnt ▸ hxlt))
        rw [List.find?_cons, hxfalse, hmx, hfind]
        rfl

/-! ## Stable sorting by rank, for the registry reorder -/

theorem orderedInsert_front {α} (r : α → α → Prop) [DecidableRel r] (x : α)
    {s : List α} (h : ∀ e ∈ s, r x e) :
    List.orderedInsert r x s = x :: s := by
  cases s with
  | nil => rfl
  | cons b t =>
    rw [List.orderedInsert]
    exact if_pos (h b (List.mem_cons_self b t))

theorem orderedInsert_append_skip {α} (r : α → α → Prop) [DecidableRel r]
    (x : α) :
    ∀ {s : List α}, (∀ e ∈ s, ¬ r x e) → ∀ (t : List α),
      List.orderedInsert r x (s ++ t) = s ++ List.orderedInsert r x t := by
  intro s
  induction s with
  | nil => intro _ t; rfl
  | cons b s ih =>
    intro h t
    rw [List.cons_append, List.orderedInsert,
      if_neg (h b (List.mem_cons_self b s)),
      ih (fun e he => h e (List.mem_cons.mpr (Or.inr he))) t, List.cons_append]

theorem flatMap_congr {α β} {ks : List α} {f g : α → List β}
    (h : ∀ k ∈ ks, f k = g k) : ks.flatMap f = ks.flatMap g := by
  induction ks with
  | nil => rfl
  | cons a ks ih =>
    rw [List.flatMap_cons, List.flatMap_cons, h a (List.mem_cons_self a ks),
      ih (fun k hk => h k (List.mem_cons.mpr (Or.inr hk)))]

theorem orderedInsert_flatMap_classes {α : Type} (rank : α → ℕ) (x : α)
    (l : List α) :
    ∀ (ks : List ℕ), ks.Pairwise (· < ·) → rank x ∈ ks →
      List.orderedInsert (fun a b => rank a ≤ rank b) x
        (ks.flatMap (fun k => l.filter (fun a => rank a = k)))
      = ks.flatMap (fun k => (x :: l).filter (fun a => rank a = k)) := by
  intro ks
  induction ks with
  | nil => intro _ hx; cases hx
  | cons k ks ihk =>
    intro hks hx
    have hklt : ∀ k2 ∈ ks, k < k2 := (List.pairwise_cons.mp hks).1
    have hksp : ks.Pairwise (· < ·) := (List.pairwise_cons.mp hks).2
    rw [List.flatMap_cons, List.flatMap_cons]
    by_cases hxk : rank x = k
    · have hfront : ∀ e ∈ (l.filter (fun a => rank a = k))
          ++ ks.flatMap (fun k2 => l.filter (fun a => rank a = k2)),
          rank x ≤ rank e := by
        intro e he
        rcases List.mem_append.mp he with h1 | h2
        · have he1 : rank e = k := by
            have := (List.mem_filter.mp h1).2
            simpa using this
          omega
        · obtain ⟨k2, hk2, he2⟩ := List.mem_flatMap.mp h2
          have he1 : rank e = k2 := by
            have := (List.mem_filter.mp he2).2
            simpa using this
          have := hklt k2 hk2
          omega
      rw [orderedInsert_front _ x hfront]
      have hfc : (x :: l).filter (fun a => rank a = k)
          = x :: l.filter (fun a => rank a = k) := by
        rw [List.filter_cons]
        simp [hxk]
      have hrest : ks.flatMap (fun k2 => (x :: l).filter (fun a => rank a = k2))
          = ks.flatMap (fun k2 => l.filter (fun a => rank a = k2)) := by
        refine flatMap_congr (fun k2 hk2 => ?_)
        rw [List.filter_cons]
        have hne : ¬ (rank x = k2) := by
          have := hklt k2 hk2
          omega
        simp [hne]
      rw [hfc, hrest, List.cons_append]
    · have hxks : rank x ∈ ks := by
        rcases List.mem_cons.mp hx with h | h
        · exact absurd h hxk
        · exact h
      have hskip : ∀ e ∈ l.filter (fun a => rank a = k),
          ¬ (rank x ≤ rank e) := by
        intro e he
        have he1 : rank e = k := by
          have := (List.mem_filter.mp he).2
          simpa using this
        have := hklt _ hxks
        omega
      rw [orderedInsert_append_skip _ x hskip _, ihk hksp hxks]
      have hfc : (x :: l).filter (fun a => rank a = k)
          = l.filter (fun a => rank a = k) := by
        rw [List.filter_cons]
        simp [hxk]
      rw [hfc]

theorem insertionSort_rank_flatMap {α : Type} (rank : α → ℕ) :
    ∀ (l : List α) (ks : List ℕ), ks.Pairwise (· < ·) →
      (∀ a ∈ l, rank a ∈ ks) →
      List.insertionSort (fun a b => rank a ≤ rank b) l
        = ks.flatMap (fun k => l.filter (fun a => rank a = k)) := by
  intro l
  induction l with
  | nil =>
    intro ks _ _
    simp
  | cons x l ihl =>
    intro ks hks hcov
    have hx : rank x ∈ ks := hcov x (List.mem_cons_self x l)
    have hcovl : ∀ a ∈ l, rank a ∈ ks :=
      fun a ha => hcov a (List.mem_cons.mpr (Or.inr ha))
    show List.orderedInsert (fun a b => rank a ≤ rank b) x
        (List.insertionSort (fun a b => rank a ≤ rank b) l) = _
    rw [ihl ks hks hcovl]
    exact orderedInsert_flatMap_classes rank x l ks hks hx

/-! ## The rank map of the registry -/

theorem find?_eq_some_of_unique {α} {p : α → Bool} {a : α} :
    ∀ {l : List α}, a ∈ l → p a = true → (∀ b ∈ l, p b = true → b = a) →
      l.find? p = some a := by
  intro l
  induction l with
  | nil => intro h; cases h
  | cons c l ih =>
    intro hm hp huniq
    rw [List.find?_cons]
    by_cases hc : p c = true
    · rw [hc, huniq c (List.mem_cons_self c l) hc]
    · simp only [Bool.not_eq_true] at hc
      rw [hc]
      have ham : a ∈ l := by
        rcases List.mem_cons.mp hm with rfl | h2
        · rw [hp] at hc; cases hc
        · exact h2
      exact ih ham hp (fun b hb hpb => huniq b (List.mem_cons.mpr (Or.inr hb)) hpb)

theorem orderPairs_mem {po : List String} :
    ∀ {s : ℕ} {p : String × ℕ}, p ∈ orderPairs po s →
      ∃ (j : ℕ) (hj : j < po.length), p = (po.get ⟨j, hj⟩, s + j) := by
  induction po with
  | nil => intro s p h; cases h
  | cons n po ih =>
    intro s p h
    rw [orderPairs, List.mem_cons] at h
    rcases h with rfl | h2
    · exact ⟨0, by simp, by simp⟩
    · obtain ⟨j, hj, rfl⟩ := ih h2
      refine ⟨j + 1, by simpa using hj, ?_⟩
      have hg : (n :: po).get ⟨j + 1, by simpa using hj⟩ = po.get ⟨j, hj⟩ := rfl
      rw [hg]
      have : s + 1 + j = s + (j + 1) := by omega
      rw [this]

theorem orderPairs_mem_of_get {po : List String} :
    ∀ (s : ℕ) (i : ℕ) (hi : i < po.length),
      (po.get ⟨i, hi⟩, s + i) ∈ orderPairs po s := by
  induction po with
  | nil => intro s i hi; cases hi
  | cons n po ih =>
    intro s i hi
    rw [orderPairs]
    cases i with
    | zero => exact List.mem_cons.mpr (Or.inl (by simp))
    | succ j =>
      refine List.mem_cons.mpr (Or.inr ?_)
      have hj : j < po.length := by simpa using hi
      have hg : (n :: po).get ⟨j + 1, hi⟩ = po.get ⟨j, hj⟩ := rfl
      have hmem := ih (s + 1) j hj
      rw [hg]
      have : s + (j + 1) = s + 1 + j := by omega
      rw [this]
      exact hmem

theorem orderMapGet_eq_none {po : List String} {n : String} (h : n ∉ po) :
    orderMapGet po n = none := by
  unfold orderMapGet
  rw [List.find?_eq_none.mpr, Option.map_none']
  intro p hp
  obtain ⟨j, hj, rfl⟩ := orderPairs_mem (List.mem_reverse.mp hp)
  simp only [decide_eq_true_eq]
  intro heq
  exact h (heq ▸ List.get_mem po j hj)

theorem orderMapGet_some {po : List String} {n : String} {i : ℕ}
    (h : orderMapGet po n = some i) :
    ∃ hi : i < po.length, po.get ⟨i, hi⟩ = n := by
  unfold orderMapGet at h
  cases hf : ((orderPairs po 0).reverse.find? (fun p => p.1 = n)) with
  | none => rw [hf] at h; cases h
  | some p =>
    rw [hf] at h
    simp only [Option.map_some', Option.some.injEq] at h
    have hmem := List.mem_of_find?_eq_some hf
    have hpred := List.find?_some hf
    simp only [decide_eq_true_eq] at hpred
    obtain ⟨j, hj, rfl⟩ := orderPairs_mem (List.mem_reverse.mp hmem)
    simp only at h hpred
    rw [Nat.zero_add] at h
    subst h
    exact ⟨hj, hpred⟩

theorem orderMapGet_isSome {po : List String} {n : String} (h : n ∈ po) :
    (orderMapGet po n).isSome = true := by
  unfold orderMapGet
  obtain ⟨i, hget⟩ := List.mem_iff_get.mp h
  have hmem : ((po.get i, (0 : ℕ) + i.1)) ∈ orderPairs po 0 :=
    orderPairs_mem_of_get 0 i.1 i.2
  rw [Option.isSome_map']
  rw [List.find?_isSome]
  exact ⟨(po.get i, (0 : ℕ) + i.1), List.mem_reverse.mpr hmem,
    by simpa using hget⟩

theorem orderMapGet_of_nodup {po : List String} {n : String} {i : ℕ}
    (hnd : po.Nodup) (hi : i < po.length) (hn : po.get ⟨i, hi⟩ = n) :
    orderMapGet po n = some i := by
  unfold orderMapGet
  have hmem : ((n, i) : String × ℕ) ∈ (orderPairs po 0).reverse := by
    rw [List.mem_reverse]
    have := @orderPairs_mem_of_get po 0 i hi
    rw [Nat.zero_add] at this
    rw [← hn]
    exact this
  have hfind : (orderPairs po 0).reverse.find? (fun p => p.1 = n)
      = some (n, i) := by
    refine find?_eq_some_of_unique hmem (by simp) ?_
    intro b hb hpb
    obtain ⟨j, hj, rfl⟩ := orderPairs_mem (List.mem_reverse.mp hb)
    simp only [decide_eq_true_eq] at hpb
    have hji : j = i := by
      have hget : po.get ⟨j, hj⟩ = po.get ⟨i, hi⟩ := by rw [hpb, hn]
      have := (List.Nodup.get_inj_iff hnd).mp hget
      exact Fin.val_eq_of_eq this
    subst hji
    rw [Nat.zero_add, hpb]
  rw [hfind]
  rfl

theorem flatMap_map_succ {β : Type} (G : ℕ → List β) (l : List ℕ) :
    (l.map Nat.succ).flatMap G = l.flatMap (fun i => G (i + 1)) := by
  induction l with
  | nil => rfl
  | cons a l ih =>
    rw [List.map_cons, List.flatMap_cons, List.flatMap_cons, ih]

theorem range_flatMap_get {β : Type} :
    ∀ (po : List String) (G : ℕ → List β) (F : String → List β),
      (∀ (i : ℕ) (hi : i < po.length), G i = F (po.get ⟨i, hi⟩)) →
      (List.range po.length).flatMap G = po.flatMap F := by
  intro po
  induction po with
  | nil => intro G F _; rfl
  | cons n po ih =>
    intro G F hGF
    rw [List.length_cons, List.range_succ_eq_map, List.flatMap_cons,
      flatMap_map_succ, ih (fun i => G (i + 1)) F
        (fun i hi => hGF (i + 1) (by simpa using hi)),
      List.flatMap_cons, hGF 0 (by simp)]
    rfl

/-! ## The fallback loop of generateAIResponse -/

theorem tryProviders_first_ok {α : Type} (call : α → Except String String) :
    ∀ (pre : List α) (p : α) (post : List α) (c : String),
      (∀ q ∈ pre, ∃ e, call q = Except.error e) → call p = Except.ok c →
      tryProviders call (pre ++ p :: post) = (pre ++ [p], Except.ok (c, p)) := by
  intro pre
  induction pre with
  | nil =>
    intro p post c _ hp
    rw [List.nil_append, tryProviders, hp]
    rfl
  | cons q pre ih =>
    intro p post c hpre hp
    obtain ⟨e, he⟩ := hpre q (List.mem_cons_self q pre)
    rw [List.cons_append, tryProviders, he,
      ih p post c (fun r hr => hpre r (List.mem_cons.mpr (Or.inr hr))) hp]
    rfl

theorem tryProviders_all_fail {α : Type} (call : α → Except String String) :
    ∀ (l : List α), (∀ q ∈ l, ∃ e, call q = Except.error e) →
      ∃ le, tryProviders call l = (l, Except.error le) := by
  intro l
  induction l with
  | nil => exact fun _ => ⟨none, rfl⟩
  | cons q l ih =>
    intro hall
    obtain ⟨e, he⟩ := hall q (List.mem_cons_self q l)
    obtain ⟨le, hle⟩ := ih (fun r hr => hall r (List.mem_cons.mpr (Or.inr hr)))
    refine ⟨some (le.getD e), ?_⟩
    rw [tryProviders, he, hle]

/-! ## The mergeFindings helpers -/

theorem mergeInto_append_no_match {ext : Finding} :
    ∀ {pre : List Finding}, (∀ f ∈ pre, findingMatches f ext = false) →
      ∀ (rest : List Finding),
        mergeInto ext (pre ++ rest) = (mergeInto ext rest).map (fun l => pre ++ l) := by
  intro pre
  induction pre with
  | nil =>
    intro _ rest
    rw [List.nil_append]
    cases mergeInto ext rest <;> rfl
  | cons f pre ih =>
    intro h rest
    rw [List.cons_append, mergeInto]
    rw [h f (List.mem_cons_self f pre)]
    simp only [Bool.false_eq_true, if_false]
    rw [ih (fun g hg => h g (List.mem_cons.mpr (Or.inr hg))) rest]
    cases mergeInto ext rest <;> rfl

theorem mergeInto_none {ext : Finding} {l : List Finding}
    (h : ∀ f ∈ l, findingMatches f ext = false) :
    mergeInto ext l = none := by
  have := mergeInto_append_no_match h []
  rw [List.append_nil] at this
  rw [this]
  rfl

/-! ## Claim theorems -/

/-- C1: JSON consensus synthesis on the concrete inputs of the claim.
Three responses parsing to severity high, high, low, listed in provider
priority order, merge to severity high; and two responses parsing to
a = [1, 2] and a = [2, 3] merge to a = [1, 2, 3], the union of the
providers sequence items de-duplicated in first-seen order. -/
theorem consensus_majority_examples :
    jLookup (synthesizeJsonConsensus
        [[("severity", Json.str "high")], [("severity", Json.str "high")],
         [("severity", Json.str "low")]]) "severity"
      = some (Json.str "high")
  ∧ jLookup (synthesizeJsonConsensus
        [[("a", Json.arr [Json.num 1, Json.num 2])],
         [("a", Json.arr [Json.num 2, Json.num 3])]]) "a"
      = some (Json.arr [Json.num 1, Json.num 2, Json.num 3]) :=
  ⟨rfl, rfl⟩

/-- C2: the fallback orchestrator of generateAIResponse. When every
provider before p fails and p succeeds, the call returns the content of p
and the attempt trace stops at p, so no later provider is contacted and
each attempted provider is called exactly once; when every provider
fails, every provider is attempted exactly once (the trace equals the
provider list) and a single exhaustion error is thrown. -/
theorem fallback_first_success_and_exhaustion {α : Type} :
    (∀ (call : α → Except String String) (pre post : List α) (p : α)
        (c : String),
      (∀ q ∈ pre, ∃ e, call q = Except.error e) → call p = Except.ok c →
      generateAIResponse (pre ++ p :: post) call = (pre ++ [p], Except.ok (c, p)))
  ∧ (∀ (call : α → Except String String) (providers : List α),
      providers ≠ [] → (∀ q ∈ providers, ∃ e, call q = Except.error e) →
      ∃ le, generateAIResponse providers call
        = (providers, Except.error (GenError.allFailed le))) := by
  constructor
  · intro call pre post p c hpre hp
    unfold generateAIResponse
    have hne : (pre ++ p :: post).isEmpty = false := by simp
    simp only [hne, Bool.false_eq_true, if_false]
    rw [tryProviders_first_ok call pre p post c hpre hp]
  · intro call providers hne hall
    obtain ⟨le, hle⟩ := tryProviders_all_fail call providers hall
    refine ⟨le, ?_⟩
    unfold generateAIResponse
    have h1 : providers.isEmpty = false := by
      simpa [List.isEmpty_iff] using hne
    simp only [h1, Bool.false_eq_true, if_false]
    rw [hle]

/-- Witness for C2: with three providers of which the first two fail, the
call returns the content of the third with all three attempted in order;
with two always-failing providers, both are attempted and one exhaustion
error is thrown. -/
theorem fallback_first_success_and_exhaustion_witness :
    generateAIResponse [0, 1, 2]
        (fun n => if n = 2 then Except.ok "ok" else Except.error "boom")
      = ([0, 1, 2], Except.ok ("ok", 2))
  ∧ ∃ le, generateAIResponse [3, 4]
        (fun _ : ℕ => (Except.error "boom" : Except String String))
      = ([3, 4], Except.error (GenError.allFailed le)) := by
  constructor
  · have h := fallback_first_success_and_exhaustion.1
      (fun n => if n = 2 then Except.ok "ok" else Except.error "boom")
      [0, 1] [] 2 "ok"
      (fun q hq => ⟨"boom", by fin_cases hq <;> rfl⟩) (by rfl)
    simpa using h
  · exact fallback_first_success_and_exhaustion.2
      (fun _ : ℕ => (Except.error "boom" : Except String String))
      [3, 4] (by simp) (fun q _ => ⟨"boom", rfl⟩)

/-- C6 counterexample: the Groq adapter, handed a 2xx completion whose
assistant text is a whitespace-only string, returns that payload as a
success instead of failing, refuting the claim that every transport
adapter treats an empty or whitespace-only 2xx payload as a transport
failure. -/
theorem groq_returns_whitespace_payload :
    callGroq (fun _ => Except.ok (some " ")) ["llama-3.3-70b-versatile"]
      = Except.ok " " :=
  rfl

/-- C6 amended: the OpenRouter adapter fails on a missing, empty or
whitespace-only 2xx assistant text; the Groq adapter never fails on such
content — it substitutes the literal braces string for missing or empty
text and returns any other text, whitespace-only included, unchanged. -/
theorem adapter_empty_content_policy :
    (∀ c : Option String,
      (c = none ∨ ∃ s, c = some s ∧ jsTrimL s.data = []) →
      openRouterExtractContent c
        = Except.error "OpenRouter returned empty response")
  ∧ groqExtractContent none = "\x7b\x7d"
  ∧ groqExtractContent (some "") = "\x7b\x7d"
  ∧ (∀ s : String, s ≠ "" → groqExtractContent (some s) = s) := by
  refine ⟨?_, rfl, rfl, ?_⟩
  · rintro c (rfl | ⟨s, rfl, hs⟩)
    · rfl
    · simp [openRouterExtractContent, hs]
  · intro s hs
    simp [groqExtractContent, hs]

/-- Witness for the amended C6: OpenRouter rejects a two-space payload,
Groq passes a one-space payload through as success. -/
theorem adapter_empty_content_policy_witness :
    openRouterExtractContent (some "  ")
      = Except.error "OpenRouter returned empty response"
  ∧ groqExtractContent (some " ") = " " :=
  ⟨adapter_empty_content_policy.1 (some "  ") (Or.inr ⟨"  ", rfl, by decide⟩),
   adapter_empty_content_policy.2.2.2 " " (by decide)⟩

/-- C7 counterexample: the Groq adapter sends the caller temperature
unchanged, so a temperature of five — outside the zero-to-two range the
claim names — goes out as-is, and the OpenAI adapter likewise passes
max_tokens through; this refutes the claim that every transport adapter
clamps its numeric call parameters. -/
theorem groq_openai_params_unclamped :
    groqTemperature (some 5) = 5 ∧ ¬ ((5 : ℚ) ≤ 2)
  ∧ openAIMaxTokens (some 50000) = 50000 := by
  refine ⟨rfl, by norm_num, rfl⟩

/-- C7 amended: only the OpenRouter transport clamps, temperature into
zero to two and max_tokens into one to 32000, and Hugging Face caps
max_new_tokens at 2000; the Groq and OpenAI transports (and likewise
Gemini and Perplexity) pass the caller temperature and max tokens through
unchanged. -/
theorem adapter_param_clamping :
    (∀ t : ℚ, 0 ≤ openRouterTemperature t ∧ openRouterTemperature t ≤ 2)
  ∧ (∀ m : ℤ, 1 ≤ openRouterMaxTokens m ∧ openRouterMaxTokens m ≤ 32000)
  ∧ (∀ t : ℚ, groqTemperature (some t) = t)
  ∧ (∀ m : ℤ, groqMaxTokens (some m) = m)
  ∧ (∀ t : ℚ, openAITemperature (some t) = t)
  ∧ (∀ m : ℤ, openAIMaxTokens (some m) = m)
  ∧ (∀ m : ℤ, huggingFaceMaxNewTokens (some m) ≤ 2000) := by
  refine ⟨fun t => ⟨le_max_left 0 _, ?_⟩, fun m => ⟨le_max_left 1 _, ?_⟩,
    fun t => rfl, fun m => rfl, fun t => rfl, fun m => rfl, fun m => ?_⟩
  · exact max_le (by norm_num) (min_le_left 2 t)
  · exact max_le (by norm_num) (min_le_left 32000 m)
  · exact min_le_right _ 2000

/-- C4: the finding merge of interpretReport. With no earlier match in
the merged list, an extracted finding whose test name equals an AI
finding under the case-insensitive trimmed comparison leaves exactly that
finding, carrying all AI fields; its empty reference range is replaced by
the non-empty extracted one, a non-empty AI reference range is kept; and
an extracted finding with no counterpart is appended as a new finding. -/
theorem finding_merge_policy :
    (∀ (pre post : List Finding) (ai ext : Finding),
      (∀ f ∈ pre, findingMatches f ext = false) →
      findingMatches ai ext = true →
      ai.referenceRange = "" → ext.referenceRange ≠ "" →
      mergeFindings (pre ++ ai :: post) [ext]
        = pre ++ { ai with referenceRange := ext.referenceRange } :: post)
  ∧ (∀ (pre post : List Finding) (ai ext : Finding),
      (∀ f ∈ pre, findingMatches f ext = false) →
      findingMatches ai ext = true →
      ai.referenceRange ≠ "" →
      mergeFindings (pre ++ ai :: post) [ext] = pre ++ ai :: post)
  ∧ (∀ (ais : List Finding) (ext : Finding),
      (∀ f ∈ ais, findingMatches f ext = false) →
      mergeFindings ais [ext] = ais ++ [ext]) := by
  refine ⟨?_, ?_, ?_⟩
  · intro pre post ai ext hpre hmatch hrr hext
    have hin : mergeInto ext (ai :: post)
        = some ({ ai with referenceRange := ext.referenceRange } :: post) := by
      rw [mergeInto, if_pos hmatch]
      have hcond : (ext.referenceRange != "" && ai.referenceRange == "")
          = true := by
        simp [bne_iff_ne, beq_iff_eq, hrr, hext]
      rw [hcond]
      simp
    simp only [mergeFindings, List.foldl_cons, List.foldl_nil, mergeStep]
    rw [mergeInto_append_no_match hpre (ai :: post), hin]
    rfl
  · intro pre post ai ext hpre hmatch hrr
    have hin : mergeInto ext (ai :: post) = some (ai :: post) := by
      rw [mergeInto, if_pos hmatch]
      have hcond : (ext.referenceRange != "" && ai.referenceRange == "")
          = false := by
        simp [beq_iff_eq, hrr]
      rw [hcond]
      simp
    simp only [mergeFindings, List.foldl_cons, List.foldl_nil, mergeStep]
    rw [mergeInto_append_no_match hpre (ai :: post), hin]
    rfl
  · intro ais ext hall
    simp only [mergeFindings, List.foldl_cons, List.foldl_nil, mergeStep]
    rw [mergeInto_none hall]

/-- Witness for C4: the hemoglobin example of the specification, an AI
finding without reference range borrowing it from its case-insensitive
extracted twin. -/
theorem finding_merge_policy_witness :
    mergeFindings
      [{ test := "Hemoglobin", value := "9.2", unit := "",
         referenceRange := "", flag := "", severity := "",
         interpretation := "" }]
      [{ test := "hemoglobin", value := "9.2", unit := "g/dL",
         referenceRange := "12.0 - 15.5", flag := "Low", severity := "low",
         interpretation := "" }]
    = [{ test := "Hemoglobin", value := "9.2", unit := "",
         referenceRange := "12.0 - 15.5", flag := "", severity := "",
         interpretation := "" }] := by
  have h := finding_merge_policy.1 [] []
    { test := "Hemoglobin", value := "9.2", unit := "",
      referenceRange := "", flag := "", severity := "", interpretation := "" }
    { test := "hemoglobin", value := "9.2", unit := "g/dL",
      referenceRange := "12.0 - 15.5", flag := "Low", severity := "low",
      interpretation := "" }
    (fun f hf => absurd hf (List.not_mem_nil f))
    (by decide) rfl (by decide)
  simpa using h

/-- C9 counterexample: normalizing an abnormal_values array holding one
empty object emits a finding whose test and value are both empty strings,
refuting the claim that every finding emitted by the system has a
non-empty test and a non-empty value. -/
theorem normalization_emits_empty_finding :
    (normalizeAbnormalValues (Json.arr [Json.obj []])).map
      (fun r => (r.test, r.value)) = [(Json.str "", Json.str "")] :=
  rfl

/-- C9 amended: every finding emitted by the text extractor has a
non-empty test and a non-empty value, but the abnormal_values
normalization of interpretReport does not enforce the invariant — an
entry lacking test and value fields normalizes to a finding with empty
test and value. -/
theorem extractor_findings_nonempty :
    (∀ (text : String) (f : Finding), f ∈ extractAbnormalFromText text →
      f.test ≠ "" ∧ f.value ≠ "")
  ∧ (normalizeAbnormalValue (Json.obj [])).test = Json.str ""
  ∧ (normalizeAbnormalValue (Json.obj [])).value = Json.str "" :=
  ⟨fun text f hf => extractAbnormalFromText_good text f hf, rfl, rfl⟩

/-- Witness for the amended C9: a pipe-delimited hemoglobin row yields a
finding, and the theorem applies to it. -/
theorem extractor_findings_nonempty_witness :
    ({ test := "Hemoglobin", value := "9.2", unit := "g/dL",
       referenceRange := "12.0 - 15.5", flag := "Low", severity := "low",
       interpretation := "Low value (reference 12.0 - 15.5)" } : Finding)
      ∈ extractAbnormalFromText "Hemoglobin | 9.2 | g/dL | 12.0-15.5 | Low"
  ∧ ({ test := "Hemoglobin", value := "9.2", unit := "g/dL",
       referenceRange := "12.0 - 15.5", flag := "Low", severity := "low",
       interpretation := "Low value (reference 12.0 - 15.5)" } : Finding).test
      ≠ ""
  ∧ ({ test := "Hemoglobin", value := "9.2", unit := "g/dL",
       referenceRange := "12.0 - 15.5", flag := "Low", severity := "low",
       interpretation := "Low value (reference 12.0 - 15.5)" } : Finding).value
      ≠ "" := by
  have hmem :
      ({ test := "Hemoglobin", value := "9.2", unit := "g/dL",
         referenceRange := "12.0 - 15.5", flag := "Low", severity := "low",
         interpretation := "Low value (reference 12.0 - 15.5)" } : Finding)
        ∈ extractAbnormalFromText "Hemoglobin | 9.2 | g/dL | 12.0-15.5 | Low" := by
    decide
  have h := extractor_findings_nonempty.1
    "Hemoglobin | 9.2 | g/dL | 12.0-15.5 | Low" _ hmem
  exact ⟨hmem, h.1, h.2⟩

/-- C5: the per-key voting policy of synthesizeJsonConsensus, for a key
observed across the parsed responses (listed in provider priority order).
When some serialized value reaches at least two votes — or only one
response parsed, unanimity among fewer respondents — the selected value is
the first-created bucket attaining the maximal count; buckets are created
in provider priority order, so a tie in count is won by the value of the
highest-priority provider. Otherwise the value of the highest-priority
parsed response for the key is used as the default. -/
theorem consensus_voting_policy (first : JObj) (rest : List JObj)
    (key : String) (hobs : voteTally (first :: rest) key ≠ []) :
    (2 ≤ maxCount (voteTally (first :: rest) key) ∨ (first :: rest).length = 1 →
      consensusValueForKey (first :: rest) key
        = ((voteTally (first :: rest) key).find?
            (fun e => maxCount (voteTally (first :: rest) key) ≤ e.count)).map
            (fun e => e.value))
  ∧ (maxCount (voteTally (first :: rest) key) < 2 ∧ (first :: rest).length ≠ 1 →
      consensusValueForKey (first :: rest) key = jLookup first key) := by
  obtain ⟨top, t, hs⟩ := List.exists_cons_of_ne_nil
    (insertionSort_ne_nil (fun a b : VoteEntry => b.count ≤ a.count) hobs)
  have hfind : (voteTally (first :: rest) key).find?
      (fun e => maxCount (voteTally (first :: rest) key) ≤ e.count)
      = some top := by
    rw [← head_insertionSort_desc hobs, hs]
    rfl
  have hmem : top ∈ voteTally (first :: rest) key :=
    List.mem_of_find?_eq_some hfind
  have hmax_le : maxCount (voteTally (first :: rest) key) ≤ top.count := by
    have hp := List.find?_some hfind
    simpa using hp
  have hcnt : top.count = maxCount (voteTally (first :: rest) key) :=
    le_antisymm (le_maxCount hmem) hmax_le
  have hc : consensusValueForKey (first :: rest) key
      = (if 2 ≤ top.count ∨ (first :: rest).length = 1 then some top.value
         else jLookup first key) := by
    unfold consensusValueForKey
    rw [hs]
  constructor
  · intro h
    rw [hc, if_pos, hfind]
    · rfl
    · rcases h with h2 | h1
      · exact Or.inl (hcnt ▸ h2)
      · exact Or.inr h1
  · rintro ⟨hlt, hne1⟩
    rw [hc, if_neg]
    rintro (h2 | h1)
    · rw [hcnt] at h2
      omega
    · exact hne1 h1

/-- Witness for C5: concrete two-out-of-three vote (the selected value is
the double-voted one) and concrete no-majority default (the value of the
first response is used). -/
theorem consensus_voting_policy_witness :
    consensusValueForKey
        [[("severity", Json.str "high")], [("severity", Json.str "high")],
         [("severity", Json.str "low")]] "severity"
      = ((voteTally
          [[("severity", Json.str "high")], [("severity", Json.str "high")],
           [("severity", Json.str "low")]] "severity").find?
          (fun e => maxCount (voteTally
            [[("severity", Json.str "high")], [("severity", Json.str "high")],
             [("severity", Json.str "low")]] "severity") ≤ e.count)).map
          (fun e => e.value)
  ∧ consensusValueForKey
        [[("veto", Json.str "a")], [("veto", Json.str "b")]] "veto"
      = jLookup [("veto", Json.str "a")] "veto" := by
  constructor
  · exact (consensus_voting_policy [("severity", Json.str "high")]
      [[("severity", Json.str "high")], [("severity", Json.str "low")]]
      "severity" (List.ne_nil_of_length_pos (by decide))).1 (by left; decide)
  · exact (consensus_voting_policy [("veto", Json.str "a")]
      [[("veto", Json.str "b")]] "veto"
      (List.ne_nil_of_length_pos (by decide))).2 (by constructor <;> decide)

/-- C10: with at least two parsed responses, a key for which no value
reaches two votes and which the highest-priority parsed response does not
carry is entirely absent from the merged result, even when lower-priority
responses supplied a value for it. -/
theorem consensus_drops_unbacked_key (first : JObj) (rest : List JObj)
    (key : String)
    (hlen : 2 ≤ (first :: rest).length)
    (hall : ∀ e ∈ voteTally (first :: rest) key, e.count < 2)
    (hmiss : jLookup first key = none) :
    jLookup (synthesizeJsonConsensus (first :: rest)) key = none := by
  have hsel : consensusValueForKey (first :: rest) key = none := by
    by_cases hv : voteTally (first :: rest) key = []
    · unfold consensusValueForKey
      rw [hv]
      rfl
    · obtain ⟨top, t, hs⟩ := List.exists_cons_of_ne_nil
        (insertionSort_ne_nil (fun a b : VoteEntry => b.count ≤ a.count) hv)
      have hc : consensusValueForKey (first :: rest) key
          = (if 2 ≤ top.count ∨ (first :: rest).length = 1 then some top.value
             else jLookup first key) := by
        unfold consensusValueForKey
        rw [hs]
      have htop : top ∈ voteTally (first :: rest) key := by
        have hmem : top ∈ List.insertionSort
            (fun a b : VoteEntry => b.count ≤ a.count)
            (voteTally (first :: rest) key) := by
          rw [hs]
          exact List.mem_cons_self top t
        exact (List.mem_insertionSort _).mp hmem
      have hlt := hall top htop
      rw [hc, if_neg, hmiss]
      rintro (h2 | h1)
      · omega
      · rw [List.length_cons] at hlen h1
        omega
  have hmerged : ∀ kv ∈ mergedBeforeArrays (first :: rest), kv.1 ≠ key := by
    intro kv hkv
    obtain ⟨k, hk, hf⟩ := List.mem_filterMap.mp hkv
    by_cases hkk : k = key
    · subst hkk
      rw [hsel] at hf
      cases hf
    · cases hcv : consensusValueForKey (first :: rest) k with
      | none => rw [hcv] at hf; cases hf
      | some v =>
        rw [hcv] at hf
        cases hf
        exact hkk
  have hfnone : List.find? (fun f => f.1 = key)
      (synthesizeJsonConsensus (first :: rest)) = none := by
    refine List.find?_eq_none.mpr ?_
    intro x hx
    unfold synthesizeJsonConsensus at hx
    obtain ⟨kv, hkv, rfl⟩ := List.mem_map.mp hx
    have h1 := hmerged kv hkv
    obtain ⟨k0, v0⟩ := kv
    simp only [decide_eq_true_eq]
    cases v0 <;> simpa using h1
  unfold jLookup
  rw [hfnone]
  rfl

/-- Witness for C10: two responses with disjoint single keys; the key of
the second response is dropped from the merged object. -/
theorem consensus_drops_unbacked_key_witness :
    jLookup (synthesizeJsonConsensus
      [[("x", Json.num 1)], [("y", Json.num 2)]]) "y" = none := by
  refine consensus_drops_unbacked_key [("x", Json.num 1)]
    [[("y", Json.num 2)]] "y" (by decide) ?_ rfl
  intro e he
  have he2 : e = ⟨stringify (Json.num 2), 1, Json.num 2⟩ := by
    have hv : voteTally [[("x", Json.num 1)], [("y", Json.num 2)]] "y"
        = [⟨stringify (Json.num 2), 1, Json.num 2⟩] := rfl
    rw [hv] at he
    exact List.mem_singleton.mp he
  rw [he2]
  decide

/-- C8: the preferred-order resort of the registry. For a duplicate-free
preferred order (whose length is bounded by MAX_SAFE_INTEGER, as any real
argument is), the output lists the providers bearing preferred names
first, grouped by name in preferred-order position with each group in
default order, followed by all providers whose names are absent from the
preferred order, in their default-priority order. -/
theorem registry_preferred_reorder (providers : List ProviderDesc)
    (po : List String) (hnd : po.Nodup)
    (hlen : po.length ≤ MAX_SAFE_INTEGER) :
    getAvailableProviders providers po
      = po.flatMap (fun n => providers.filter (fun p => p.name = n))
        ++ providers.filter (fun p => ¬ (p.name ∈ po)) := by
  have hMAX : MAX_SAFE_INTEGER = 9007199254740991 := rfl
  by_cases hpo : po = []
  · subst hpo
    unfold getAvailableProviders
    simp
  · unfold getAvailableProviders
    have hpo2 : po.isEmpty = false := by
      simpa [List.isEmpty_iff] using hpo
    simp only [hpo2, Bool.false_eq_true, if_false]
    have hks : (List.range po.length ++ [MAX_SAFE_INTEGER]).Pairwise (· < ·) := by
      rw [List.pairwise_append]
      refine ⟨List.pairwise_lt_range _, List.pairwise_singleton _ _, ?_⟩
      intro a ha b hb
      rw [List.mem_range] at ha
      rw [List.mem_singleton] at hb
      subst hb
      omega
    have hcov : ∀ p ∈ providers,
        rankOf po p.name ∈ List.range po.length ++ [MAX_SAFE_INTEGER] := by
      intro p _
      by_cases hmem : p.name ∈ po
      · obtain ⟨i, hi⟩ := Option.isSome_iff_exists.mp (orderMapGet_isSome hmem)
        obtain ⟨hilt, _⟩ := orderMapGet_some hi
        rw [List.mem_append, List.mem_range]
        left
        unfold rankOf
        rw [hi]
        exact hilt
      · rw [List.mem_append]
        right
        unfold rankOf
        rw [orderMapGet_eq_none hmem]
        exact List.mem_singleton.mpr rfl
    rw [insertionSort_rank_flatMap (fun p => rankOf po p.name) providers
      (List.range po.length ++ [MAX_SAFE_INTEGER]) hks hcov,
      List.flatMap_append]
    congr 1
    · refine range_flatMap_get po _ _ ?_
      intro i hi
      refine List.filter_congr ?_
      intro p _
      rw [decide_eq_decide]
      constructor
      · intro hr
        unfold rankOf at hr
        cases hg : orderMapGet po p.name with
        | none =>
          rw [hg] at hr
          simp only [Option.getD_none] at hr
          omega
        | some j =>
          rw [hg] at hr
          simp only [Option.getD_some] at hr
          subst hr
          obtain ⟨hjlt, hjget⟩ := orderMapGet_some hg
          exact hjget.symm
      · intro hn
        have hgm := orderMapGet_of_nodup hnd hi hn.symm
        unfold rankOf
        rw [hgm]
        rfl
    · have hsingle : List.flatMap [MAX_SAFE_INTEGER]
          (fun k => providers.filter (fun a => rankOf po a.name = k))
          = providers.filter (fun a => rankOf po a.name = MAX_SAFE_INTEGER) := by
        simp
      rw [hsingle]
      refine List.filter_congr ?_
      intro p _
      rw [decide_eq_decide]
      constructor
      · intro hr hmem
        obtain ⟨i, hi⟩ := Option.isSome_iff_exists.mp (orderMapGet_isSome hmem)
        obtain ⟨hilt, _⟩ := orderMapGet_some hi
        unfold rankOf at hr
        rw [hi] at hr
        simp only [Option.getD_some] at hr
        omega
      · intro hmem
        unfold rankOf
        rw [orderMapGet_eq_none hmem]
        rfl

/-- Witness for C8: one preferred name pulls its provider ahead, the two
providers with absent names keep their default order behind it. -/
theorem registry_preferred_reorder_witness :
    getAvailableProviders
      [{ name := "gemini", model := "m1" }, { name := "groq", model := "m2" },
       { name := "openai", model := "m3" }] ["groq"]
      = [{ name := "groq", model := "m2" }, { name := "gemini", model := "m1" },
         { name := "openai", model := "m3" }] := by
  have h := registry_preferred_reorder
    [{ name := "gemini", model := "m1" }, { name := "groq", model := "m2" },
     { name := "openai", model := "m3" }] ["groq"]
    (by decide) (by decide)
  rw [h]
  decide

/-- C3 (the code at the claimed inputs): the extractor returns no finding
at all on the hemoglobin line of the claim — the line cleaner collapses
every whitespace run to a single space, single spaces are not part
delimiters, so strategy one sees the whole line as one part and finds no
value, while the positional parser of strategy two consumes the word
Hemoglobin as the unit after removing the value and so drops the row for
an empty test name — and, as claimed, no finding on the normal glucose
line. -/
theorem extractor_claimed_inputs_yield_nothing :
    extractAbnormalFromText "Hemoglobin 9.2 g/dL 12.0-15.5 Low" = []
  ∧ extractAbnormalFromText "Glucose 95 mg/dL 70-100 Normal" = [] := by
  constructor <;> decide

end MedEase
